import Mathlib

/-!
Verification of the hyperbolic-geometry primitive library
(`sdks/python/hyperspace/math.py`): Möbius addition, exponential and
logarithmic maps, Riemannian gradient conversion, parallel transport and
Fréchet-mean estimation on the Poincaré ball.

The Python functions are embedded shallowly: vectors are `List ℝ`,
floating-point arithmetic is modelled as exact real arithmetic, the raised
`ValueError`s are modelled as the four error kinds of the spec's taxonomy
(`DimensionMismatch`, `InvalidCurvature`, `DegenerateOperation`,
`EmptyInput`), and each fallible function returns `Except MathError (List ℝ)`.
`math.tanh` and `math.atanh` from the Python standard library are embedded
by their defining formulas in terms of `Real.exp` / `Real.log`.
-/

namespace Hyperspace

noncomputable section

/-- Error kinds of the library (spec §7), carried by every fallible
operation in place of Python's raised `ValueError`s. -/
inductive MathError where
  | dimensionMismatch
  | invalidCurvature
  | degenerateOperation
  | emptyInput
deriving DecidableEq, Repr

/-- `_dot(a, b)`: `sum(x * y for x, y in zip(a, b))`. -/
def dot (a b : List ℝ) : ℝ := (List.zipWith (· * ·) a b).sum

/-- `_norm_sq(v)`: `_dot(v, v)`. -/
def normSq (v : List ℝ) : ℝ := dot v v

/-- `math.tanh`, embedded by its defining formula
`tanh t = (e^{2t} - 1) / (e^{2t} + 1)`. -/
def tanh (t : ℝ) : ℝ := (Real.exp (2 * t) - 1) / (Real.exp (2 * t) + 1)

/-- `math.atanh`, embedded by its defining formula
`atanh y = log ((1 + y) / (1 - y)) / 2`. -/
def atanh (y : ℝ) : ℝ := Real.log ((1 + y) / (1 - y)) / 2

/-- `_project_to_ball(x, c)`: clips `x` back inside the safety radius
`1/sqrt(c) - 1e-9`; `n = sqrt(max(norm_sq x, 0))`. -/
def projectToBall (x : List ℝ) (c : ℝ) : List ℝ :=
  if Real.sqrt (max (normSq x) 0) ≤ 1 / Real.sqrt c - 1e-9 ∨
      Real.sqrt (max (normSq x) 0) ≤ 1e-15 then x
  else x.map (fun v =>
    ((1 / Real.sqrt c - 1e-9) / Real.sqrt (max (normSq x) 0)) * v)

/-- `num_left` of `mobius_add`: `1 + 2c⟨x,y⟩ + c‖y‖²`. -/
def mobiusNumL (x y : List ℝ) (c : ℝ) : ℝ := 1 + 2 * c * dot x y + c * normSq y

/-- `num_right` of `mobius_add`: `1 - c‖x‖²`. -/
def mobiusNumR (x : List ℝ) (c : ℝ) : ℝ := 1 - c * normSq x

/-- `den` of `mobius_add`: `1 + 2c⟨x,y⟩ + c²‖x‖²‖y‖²`. -/
def mobiusDen (x y : List ℝ) (c : ℝ) : ℝ :=
  1 + 2 * c * dot x y + (c * c) * normSq x * normSq y

/-- The component formula of `mobius_add`:
`result_i = (num_left * x_i + num_right * y_i) / den`. -/
def mobiusRaw (x y : List ℝ) (c : ℝ) : List ℝ :=
  List.zipWith
    (fun xi yi => (mobiusNumL x y c * xi + mobiusNumR x c * yi) / mobiusDen x y c)
    x y

/-- `mobius_add(x, y, c)` with its precondition checks and the degeneracy
guard `abs(den) < 1e-15`. -/
def mobiusAdd (x y : List ℝ) (c : ℝ) : Except MathError (List ℝ) :=
  if x.length ≠ y.length then .error .dimensionMismatch
  else if c ≤ 0 then .error .invalidCurvature
  else if |mobiusDen x y c| < 1e-15 then .error .degenerateOperation
  else .ok (mobiusRaw x y c)

/-- The clamped conformal factor of the code:
`lambda_x = 2 / max(1 - c‖x‖², 1e-15)`. -/
def lambdaAt (x : List ℝ) (c : ℝ) : ℝ := 2 / max (1 - c * normSq x) 1e-15

/-- The tangent-scaling factor of `exp_map`:
`tanh(sqrt(c) * lambda_x * ‖v‖ / 2) / (sqrt(c) * ‖v‖)`. -/
def expScale (x v : List ℝ) (c : ℝ) : ℝ :=
  tanh (Real.sqrt c * lambdaAt x c * Real.sqrt (max (normSq v) 0) / 2) /
    (Real.sqrt c * Real.sqrt (max (normSq v) 0))

/-- `exp_map(x, v, c)`. -/
def expMap (x v : List ℝ) (c : ℝ) : Except MathError (List ℝ) :=
  if x.length ≠ v.length then .error .dimensionMismatch
  else if c ≤ 0 then .error .invalidCurvature
  else if Real.sqrt (max (normSq v) 0) < 1e-15 then .ok x
  else mobiusAdd x (v.map (fun vi => expScale x v c * vi)) c

/-- The scaling factor of `log_map`:
`(2 / (lambda_x * sqrt(c))) * atanh(min(sqrt(c) * ‖delta‖, 1 - 1e-15))`. -/
def logFactor (x delta : List ℝ) (c : ℝ) : ℝ :=
  (2 / (lambdaAt x c * Real.sqrt c)) *
    atanh (min (Real.sqrt c * Real.sqrt (max (normSq delta) 0)) (1 - 1e-15))

/-- `log_map(x, y, c)`. -/
def logMap (x y : List ℝ) (c : ℝ) : Except MathError (List ℝ) :=
  if x.length ≠ y.length then .error .dimensionMismatch
  else if c ≤ 0 then .error .invalidCurvature
  else
    match mobiusAdd (x.map (fun xi => -xi)) y c with
    | .error e => .error e
    | .ok delta =>
      if Real.sqrt (max (normSq delta) 0) < 1e-15 then .ok (x.map (fun _ => 0))
      else .ok (delta.map (fun di =>
        logFactor x delta c * di / Real.sqrt (max (normSq delta) 0)))

/-- `riemannian_gradient(x, euclidean_grad, c)`. -/
def riemannianGradient (x g : List ℝ) (c : ℝ) : Except MathError (List ℝ) :=
  if x.length ≠ g.length then .error .dimensionMismatch
  else if c ≤ 0 then .error .invalidCurvature
  else .ok (g.map (fun gi => (1 / (lambdaAt x c * lambdaAt x c)) * gi))

/-- `_gyro(u, v, w, c) = mobius_add(-(u⊕v), u⊕(v⊕w))`. -/
def gyro (u v w : List ℝ) (c : ℝ) : Except MathError (List ℝ) :=
  match mobiusAdd u v c with
  | .error e => .error e
  | .ok uv =>
    match mobiusAdd v w c with
    | .error e => .error e
    | .ok vw =>
      match mobiusAdd u vw c with
      | .error e => .error e
      | .ok left => mobiusAdd (uv.map (fun z => -z)) left c

/-- The gyration formula of the spec, written with the raw (check-free)
Möbius component formula: `gyr[u,w]z = -(u⊕w) ⊕ (u⊕(w⊕z))`. -/
def gyrRaw (u w z : List ℝ) (c : ℝ) : List ℝ :=
  mobiusRaw ((mobiusRaw u w c).map (fun t => -t))
    (mobiusRaw u (mobiusRaw w z c) c) c

/-- `parallel_transport(x, y, v, c)`. -/
def parallelTransport (x y v : List ℝ) (c : ℝ) : Except MathError (List ℝ) :=
  if x.length ≠ y.length ∨ x.length ≠ v.length then .error .dimensionMismatch
  else if c ≤ 0 then .error .invalidCurvature
  else
    match gyro y (x.map (fun xi => -xi)) v c with
    | .error e => .error e
    | .ok g => .ok (g.map (fun gi => (lambdaAt x c / lambdaAt y c) * gi))

/-- One gradient evaluation of `frechet_mean`'s loop: the mean over the
points of `log_map(mu, p, c)` (accumulated into a zero vector of length
`dim`, then scaled by `1 / len(points)`). -/
def meanGrad (pts : List (List ℝ)) (mu : List ℝ) (c : ℝ) (dim : ℕ) :
    Except MathError (List ℝ) :=
  match pts.mapM (fun p => logMap mu p c) with
  | .error e => .error e
  | .ok lgs => .ok
      (((lgs.foldl (fun acc lg => List.zipWith (· + ·) acc lg)
          (List.replicate dim 0)).map (fun g => g * (1 / (pts.length : ℝ)))))

/-- The iteration of `frechet_mean`: the fuel is the number of remaining
loop rounds; running out of fuel returns the current estimate. -/
def frechetLoop (pts : List (List ℝ)) (c tol : ℝ) (dim : ℕ) :
    ℕ → List ℝ → Except MathError (List ℝ)
  | 0, mu => .ok mu
  | n + 1, mu =>
    match meanGrad pts mu c dim with
    | .error e => .error e
    | .ok grad =>
      if Real.sqrt (max (normSq grad) 0) ≤ max tol 1e-15 then .ok mu
      else
        match expMap mu grad c with
        | .error e => .error e
        | .ok mu1 => frechetLoop pts c tol dim n (projectToBall mu1 c)

/-- `frechet_mean(points, c, max_iter, tol)`; the Python loop runs
`range(max(1, max_iter))` rounds. -/
def frechetMean (pts : List (List ℝ)) (c : ℝ) (maxIter : ℕ) (tol : ℝ) :
    Except MathError (List ℝ) :=
  if pts.isEmpty then .error .emptyInput
  else if c ≤ 0 then .error .invalidCurvature
  else if pts.any (fun p => p.length ≠ (pts.headD []).length) then
    .error .dimensionMismatch
  else frechetLoop pts c tol (pts.headD []).length (max 1 maxIter)
    (projectToBall (pts.headD []) c)

/-- The round trip `log_map(x, exp_map(x, v, c), c)` of the spec's
round-trip property. -/
def roundTrip (x v : List ℝ) (c : ℝ) : Except MathError (List ℝ) :=
  match expMap x v c with
  | .error e => .error e
  | .ok y => logMap x y c

/-! ### Arithmetic lemmas about `dot` and `normSq` -/

theorem dot_nil_left (y : List ℝ) : dot [] y = 0 := by simp [dot]

theorem dot_nil_right (x : List ℝ) : dot x [] = 0 := by simp [dot]

theorem dot_cons (a b : ℝ) (x y : List ℝ) :
    dot (a :: x) (b :: y) = a * b + dot x y := by simp [dot]

theorem dot_comm (x y : List ℝ) : dot x y = dot y x := by
  induction x generalizing y with
  | nil => cases y <;> simp [dot]
  | cons a as ih =>
    cases y with
    | nil => simp [dot]
    | cons b bs => simp only [dot_cons, ih, mul_comm]

theorem normSq_nonneg (v : List ℝ) : 0 ≤ normSq v := by
  induction v with
  | nil => simp [normSq, dot]
  | cons a as ih =>
    have h := mul_self_nonneg a
    simpa [normSq, dot_cons] using add_nonneg h ih

theorem max_normSq (v : List ℝ) : max (normSq v) 0 = normSq v :=
  max_eq_left (normSq_nonneg v)

theorem dot_map_mul_left (s : ℝ) (x y : List ℝ) :
    dot (x.map (fun t => s * t)) y = s * dot x y := by
  induction x generalizing y with
  | nil => simp [dot]
  | cons a as ih =>
    cases y with
    | nil => simp [dot]
    | cons b bs => simp only [List.map_cons, dot_cons, ih]; ring

theorem dot_map_neg_left (x y : List ℝ) :
    dot (x.map (fun t => -t)) y = -dot x y := by
  induction x generalizing y with
  | nil => simp [dot]
  | cons a as ih =>
    cases y with
    | nil => simp [dot]
    | cons b bs => simp only [List.map_cons, dot_cons, ih]; ring

theorem normSq_map_neg (x : List ℝ) :
    normSq (x.map (fun t => -t)) = normSq x := by
  unfold normSq
  rw [dot_map_neg_left, dot_comm, dot_map_neg_left, dot_comm, neg_neg]

theorem normSq_map_mul (s : ℝ) (x : List ℝ) :
    normSq (x.map (fun t => s * t)) = s * s * normSq x := by
  unfold normSq
  rw [dot_map_mul_left, dot_comm, dot_map_mul_left, dot_comm]; ring

theorem dot_lincomb (p q d : ℝ) (x y : List ℝ) (h : x.length = y.length) :
    ∀ z : List ℝ,
      dot (List.zipWith (fun a b => (p * a + q * b) / d) x y) z =
        (p * dot x z + q * dot y z) / d := by
  induction x generalizing y with
  | nil =>
    cases y with
    | nil => intro z; simp [dot]
    | cons b bs => exact absurd h (by simp)
  | cons a as ih =>
    cases y with
    | nil => exact absurd h (by simp)
    | cons b bs =>
      intro z
      cases z with
      | nil => simp [dot]
      | cons t ts =>
        have h' : as.length = bs.length := by simpa using h
        simp only [List.zipWith_cons_cons, dot_cons, ih bs h' ts]
        ring

theorem cauchy_schwarz (x y : List ℝ) : (dot x y) ^ 2 ≤ normSq x * normSq y := by
  induction x generalizing y with
  | nil => simp [dot, normSq]
  | cons a as ih =>
    cases y with
    | nil => simp [dot, normSq]
    | cons b bs =>
      have hX := normSq_nonneg as
      have hY := normSq_nonneg bs
      have hS := ih bs
      simp only [dot_cons, normSq] at hX hY hS ⊢
      rcases eq_or_lt_of_le hX with hX0 | hX0
      · have hs0 : dot as bs = 0 := by
          have h2 : (dot as bs) ^ 2 ≤ 0 := by
            calc (dot as bs) ^ 2 ≤ dot as as * dot bs bs := hS
            _ = 0 := by rw [← hX0]; ring
          exact pow_eq_zero_iff (n := 2) (by norm_num) |>.mp
            (le_antisymm h2 (sq_nonneg _))
        rw [← hX0, hs0]
        nlinarith [sq_nonneg (a * b), sq_nonneg a, sq_nonneg b, mul_nonneg (mul_self_nonneg a) hY]
      · nlinarith [sq_nonneg (a * dot as bs - b * dot as as), hS, hX0, hY,
          mul_nonneg hX hY, sq_nonneg (a * b)]

/-! ### zipWith manipulation lemmas -/

theorem zipWith_shared_left (f g : ℝ → ℝ → ℝ) (x y : List ℝ) :
    List.zipWith f x (List.zipWith g x y) =
      List.zipWith (fun a b => f a (g a b)) x y := by
  induction x generalizing y with
  | nil => simp
  | cons a as ih =>
    cases y with
    | nil => simp
    | cons b bs => simp [ih]

theorem zipWith_eq_right (F : ℝ → ℝ → ℝ) (hF : ∀ a b, F a b = b) :
    ∀ x y : List ℝ, x.length = y.length → List.zipWith F x y = y := by
  intro x
  induction x with
  | nil => intro y h; cases y with
    | nil => simp
    | cons b bs => exact absurd h (by simp)
  | cons a as ih =>
    intro y h
    cases y with
    | nil => exact absurd h (by simp)
    | cons b bs =>
      have h' : as.length = bs.length := by simpa using h
      simp [hF, ih bs h']

theorem length_mobiusRaw (x y : List ℝ) (c : ℝ) (h : x.length = y.length) :
    (mobiusRaw x y c).length = x.length := by
  simp [mobiusRaw, h]

/-! ### Algebraic identities of Möbius addition -/

theorem dot_mobiusRaw (x y z : List ℝ) (c : ℝ) (h : x.length = y.length) :
    dot (mobiusRaw x y c) z =
      (mobiusNumL x y c * dot x z + mobiusNumR x c * dot y z) / mobiusDen x y c := by
  unfold mobiusRaw
  exact dot_lincomb _ _ _ x y h z

theorem normSq_mobiusRaw (x y : List ℝ) (c : ℝ) (h : x.length = y.length) :
    normSq (mobiusRaw x y c) =
      (mobiusNumL x y c ^ 2 * normSq x +
        2 * mobiusNumL x y c * mobiusNumR x c * dot x y +
        mobiusNumR x c ^ 2 * normSq y) / mobiusDen x y c ^ 2 := by
  have h1 := dot_mobiusRaw x y (mobiusRaw x y c) c h
  have h2 := dot_mobiusRaw x y x c h
  have h3 := dot_mobiusRaw x y y c h
  rw [normSq, h1, dot_comm x (mobiusRaw x y c), h2, dot_comm y (mobiusRaw x y c), h3,
    dot_comm y x, show dot x x = normSq x from rfl, show dot y y = normSq y from rfl]
  rcases eq_or_ne (mobiusDen x y c) 0 with h0 | h0
  · rw [h0]; simp
  · field_simp
    ring

theorem one_sub_normSq_mobiusRaw (x y : List ℝ) (c : ℝ) (h : x.length = y.length)
    (hden : mobiusDen x y c ≠ 0) :
    1 - c * normSq (mobiusRaw x y c) =
      (1 - c * normSq x) * (1 - c * normSq y) / mobiusDen x y c := by
  rw [normSq_mobiusRaw x y c h]
  unfold mobiusNumL mobiusNumR mobiusDen at *
  field_simp
  ring

theorem dot_neg_mobiusRaw (x y : List ℝ) (c : ℝ) (h : x.length = y.length) :
    dot (x.map fun t => -t) (mobiusRaw x y c) =
      -((mobiusNumL x y c * normSq x + mobiusNumR x c * dot x y) / mobiusDen x y c) := by
  rw [dot_map_neg_left, dot_comm, dot_mobiusRaw x y x c h, dot_comm y x,
    show dot x x = normSq x from rfl]

theorem mobiusDen_neg_mobiusRaw (x y : List ℝ) (c : ℝ) (h : x.length = y.length)
    (hden : mobiusDen x y c ≠ 0) :
    mobiusDen (x.map fun t => -t) (mobiusRaw x y c) c =
      (1 - c * normSq x) ^ 2 / mobiusDen x y c := by
  show 1 + 2 * c * dot (x.map fun t => -t) (mobiusRaw x y c) +
      (c * c) * normSq (x.map fun t => -t) * normSq (mobiusRaw x y c) = _
  rw [dot_neg_mobiusRaw x y c h, normSq_map_neg, normSq_mobiusRaw x y c h]
  unfold mobiusNumL mobiusNumR mobiusDen at *
  field_simp
  ring

theorem numL_neg_mobiusRaw (x y : List ℝ) (c : ℝ) (h : x.length = y.length)
    (hden : mobiusDen x y c ≠ 0) :
    mobiusNumL (x.map fun t => -t) (mobiusRaw x y c) c =
      (1 - c * normSq x) * mobiusNumL x y c / mobiusDen x y c := by
  show 1 + 2 * c * dot (x.map fun t => -t) (mobiusRaw x y c) +
      c * normSq (mobiusRaw x y c) = _
  rw [dot_neg_mobiusRaw x y c h, normSq_mobiusRaw x y c h]
  unfold mobiusNumL mobiusNumR mobiusDen at *
  field_simp
  ring

theorem mobius_left_cancel (x y : List ℝ) (c : ℝ) (h : x.length = y.length)
    (hden : mobiusDen x y c ≠ 0) (hX : 1 - c * normSq x ≠ 0) :
    mobiusRaw (x.map fun t => -t) (mobiusRaw x y c) c = y := by
  have hNR : mobiusNumR (x.map fun t => -t) c = 1 - c * normSq x := by
    unfold mobiusNumR
    rw [normSq_map_neg]
  have hNL := numL_neg_mobiusRaw x y c h hden
  have hDD := mobiusDen_neg_mobiusRaw x y c h hden
  show List.zipWith
      (fun xi yi =>
        (mobiusNumL (x.map fun t => -t) (mobiusRaw x y c) c * xi +
          mobiusNumR (x.map fun t => -t) c * yi) /
        mobiusDen (x.map fun t => -t) (mobiusRaw x y c) c)
      (x.map fun t => -t) (mobiusRaw x y c) = y
  rw [hNR, hNL, hDD, List.zipWith_map_left,
    show mobiusRaw x y c = List.zipWith
      (fun xi yi => (mobiusNumL x y c * xi + mobiusNumR x c * yi) / mobiusDen x y c)
      x y from rfl,
    zipWith_shared_left]
  apply zipWith_eq_right _ _ x y h
  intro a b
  unfold mobiusNumR
  field_simp
  ring

/-! ### Properties of the embedded `tanh` and `atanh` -/

theorem tanh_lt_one (t : ℝ) : tanh t < 1 := by
  unfold tanh
  have h := Real.exp_pos (2 * t)
  rw [div_lt_one (by linarith)]
  linarith

theorem neg_one_lt_tanh (t : ℝ) : -1 < tanh t := by
  unfold tanh
  have h := Real.exp_pos (2 * t)
  rw [lt_div_iff (by linarith)]
  linarith

theorem tanh_sq_lt_one (t : ℝ) : tanh t ^ 2 < 1 := by
  nlinarith [tanh_lt_one t, neg_one_lt_tanh t]

theorem tanh_pos (t : ℝ) (h : 0 < t) : 0 < tanh t := by
  unfold tanh
  have h1 : (1 : ℝ) < Real.exp (2 * t) := by
    rw [show (1:ℝ) = Real.exp 0 from (Real.exp_zero).symm]
    exact Real.exp_lt_exp.mpr (by linarith)
  have h2 := Real.exp_pos (2 * t)
  apply div_pos (by linarith) (by linarith)

theorem atanh_tanh (t : ℝ) : atanh (tanh t) = t := by
  unfold atanh tanh
  have h := Real.exp_pos (2 * t)
  have harg : (1 + (Real.exp (2 * t) - 1) / (Real.exp (2 * t) + 1)) /
      (1 - (Real.exp (2 * t) - 1) / (Real.exp (2 * t) + 1)) = Real.exp (2 * t) := by
    rw [div_eq_iff]
    · field_simp
      ring
    · intro hz
      rw [sub_eq_zero, eq_comm, div_eq_one_iff_eq (by linarith)] at hz
      linarith
  rw [harg, Real.log_exp]
  ring

theorem div_le_tanh (t : ℝ) (h : 0 ≤ t) : t / (1 + t) ≤ tanh t := by
  unfold tanh
  have hw := Real.add_one_le_exp (2 * t)
  have h2 := Real.exp_pos (2 * t)
  rw [div_le_div_iff (by linarith) (by linarith)]
  nlinarith

theorem tanh_le_tanh (t u : ℝ) (h : t ≤ u) : tanh t ≤ tanh u := by
  unfold tanh
  have h1 := Real.exp_pos (2 * t)
  have h2 := Real.exp_pos (2 * u)
  have h3 : Real.exp (2 * t) ≤ Real.exp (2 * u) := Real.exp_le_exp.mpr (by linarith)
  rw [div_le_div_iff (by linarith) (by linarith)]
  nlinarith

theorem atanh_half : atanh (1 / 2) = Real.log 3 / 2 := by
  unfold atanh
  norm_num

/-! ### Inversion and introduction lemmas for the fallible operations -/

theorem mobiusAdd_ok (x y : List ℝ) (c : ℝ) (r : List ℝ)
    (h : mobiusAdd x y c = .ok r) :
    x.length = y.length ∧ 0 < c ∧ 1e-15 ≤ |mobiusDen x y c| ∧
      r = mobiusRaw x y c := by
  unfold mobiusAdd at h
  split_ifs at h with h1 h2 h3
  exact ⟨not_not.mp h1, lt_of_not_le h2, le_of_not_lt h3, by simpa using h.symm⟩

theorem mobiusAdd_eq_ok (x y : List ℝ) (c : ℝ) (h1 : x.length = y.length)
    (h2 : 0 < c) (h3 : 1e-15 ≤ |mobiusDen x y c|) :
    mobiusAdd x y c = .ok (mobiusRaw x y c) := by
  unfold mobiusAdd
  rw [if_neg (by simp [h1]), if_neg (not_le.mpr h2), if_neg (not_lt.mpr h3)]

theorem expMap_ok (x v : List ℝ) (c : ℝ) (r : List ℝ)
    (h : expMap x v c = .ok r) :
    x.length = v.length ∧ 0 < c ∧
      ((Real.sqrt (max (normSq v) 0) < 1e-15 ∧ r = x) ∨
        (1e-15 ≤ Real.sqrt (max (normSq v) 0) ∧
          mobiusAdd x (v.map fun vi => expScale x v c * vi) c = .ok r)) := by
  unfold expMap at h
  split_ifs at h with h1 h2 h3
  · exact ⟨not_not.mp h1, lt_of_not_le h2, Or.inl ⟨h3, by simpa using h.symm⟩⟩
  · exact ⟨not_not.mp h1, lt_of_not_le h2, Or.inr ⟨le_of_not_lt h3, h⟩⟩

theorem logMap_ok (x y : List ℝ) (c : ℝ) (r : List ℝ)
    (h : logMap x y c = .ok r) :
    x.length = y.length ∧ 0 < c ∧
      ∃ delta, mobiusAdd (x.map fun xi => -xi) y c = .ok delta ∧
        ((Real.sqrt (max (normSq delta) 0) < 1e-15 ∧ r = x.map (fun _ => 0)) ∨
          (1e-15 ≤ Real.sqrt (max (normSq delta) 0) ∧
            r = delta.map (fun di =>
              logFactor x delta c * di / Real.sqrt (max (normSq delta) 0)))) := by
  unfold logMap at h
  split_ifs at h with h1 h2
  refine ⟨not_not.mp h1, lt_of_not_le h2, ?_⟩
  revert h
  split
  · intro h; exact absurd h (by simp)
  · next delta hdelta =>
    intro h
    refine ⟨delta, hdelta, ?_⟩
    split at h
    · next hsmall => exact Or.inl ⟨hsmall, by simpa using h.symm⟩
    · next hsmall => exact Or.inr ⟨le_of_not_lt hsmall, by simpa using h.symm⟩

/-! ### Interior preservation -/

theorem mobiusDen_pos (x y : List ℝ) (c : ℝ) (hc : 0 < c)
    (hx : c * normSq x < 1) (hy : c * normSq y < 1) : 0 < mobiusDen x y c := by
  unfold mobiusDen
  have hcs := cauchy_schwarz x y
  have hX := normSq_nonneg x
  have hY := normSq_nonneg y
  have hcx : 0 ≤ c * normSq x := mul_nonneg hc.le hX
  have hcy : 0 ≤ c * normSq y := mul_nonneg hc.le hY
  have hQ : (c * c) * normSq x * normSq y < 1 := by nlinarith
  have hP2 : (c * dot x y) ^ 2 ≤ (c * c) * normSq x * normSq y := by nlinarith
  by_contra hle
  push_neg at hle
  have e1 : (c * dot x y) ^ 2 ≥ -1 - 2 * (c * dot x y) := by
    nlinarith [sq_nonneg (1 + c * dot x y)]
  have e2 : (-1 : ℝ) - 2 * (c * dot x y) ≥ (c * c) * normSq x * normSq y := by
    linarith
  have e3 : (c * dot x y) ^ 2 = (c * c) * normSq x * normSq y :=
    le_antisymm hP2 (by linarith)
  have e4 : (c * dot x y + 1) ^ 2 ≤ 0 := by nlinarith
  have e5 : c * dot x y = -1 := by nlinarith [sq_nonneg (c * dot x y + 1)]
  rw [e5] at e3
  norm_num at e3
  linarith

theorem interior_mobiusRaw (x y : List ℝ) (c : ℝ) (h : x.length = y.length)
    (hc : 0 < c) (hx : c * normSq x < 1) (hy : c * normSq y < 1) :
    c * normSq (mobiusRaw x y c) < 1 := by
  have hden := mobiusDen_pos x y c hc hx hy
  have hid := one_sub_normSq_mobiusRaw x y c h (ne_of_gt hden)
  have hpos : 0 < (1 - c * normSq x) * (1 - c * normSq y) / mobiusDen x y c :=
    div_pos (mul_pos (by linarith) (by linarith)) hden
  linarith [hid ▸ hpos]

theorem interior_projectToBall (z : List ℝ) (c : ℝ) (hc : 0 < c)
    (hlt : c < 4e18) (hz : c * normSq z < 1) :
    c * normSq (projectToBall z c) < 1 := by
  unfold projectToBall
  split
  · exact hz
  · next hcond =>
    push_neg at hcond
    obtain ⟨h1, h2⟩ := hcond
    rw [max_normSq] at h1 h2 ⊢
    have hn : 0 < Real.sqrt (normSq z) := lt_trans (by norm_num) h2
    have hn2 : Real.sqrt (normSq z) ^ 2 = normSq z := Real.sq_sqrt (normSq_nonneg z)
    rw [normSq_map_mul]
    have hsc : 0 < Real.sqrt c := Real.sqrt_pos.mpr hc
    have hc2 : Real.sqrt c ^ 2 = c := Real.sq_sqrt hc.le
    have hclt : Real.sqrt c < 2e9 := by
      rw [Real.sqrt_lt' (by norm_num)]
      linarith
    set s := Real.sqrt c with hs
    set n := Real.sqrt (normSq z) with hnn
    have key : c * ((1 / s - 1e-9) / n * ((1 / s - 1e-9) / n) * normSq z) =
        (1 - 1e-9 * s) ^ 2 := by
      rw [← hc2, ← hn2]
      field_simp
      ring
    rw [key]
    nlinarith [mul_pos (by norm_num : (0:ℝ) < 1e-9) hsc]

theorem normSq_expStep (x v : List ℝ) (c : ℝ) (hc : 0 < c)
    (hv : 1e-15 ≤ Real.sqrt (max (normSq v) 0)) :
    c * normSq (v.map fun vi => expScale x v c * vi) =
      tanh (Real.sqrt c * lambdaAt x c * Real.sqrt (max (normSq v) 0) / 2) ^ 2 := by
  rw [max_normSq] at hv ⊢
  have hnv : 0 < Real.sqrt (normSq v) := lt_of_lt_of_le (by norm_num) hv
  have hV : 0 < normSq v := Real.sqrt_pos.mp hnv
  rw [normSq_map_mul]
  unfold expScale
  rw [max_normSq]
  have hsc : 0 < Real.sqrt c := Real.sqrt_pos.mpr hc
  have hc2 : Real.sqrt c ^ 2 = c := Real.sq_sqrt hc.le
  have hn2 : Real.sqrt (normSq v) ^ 2 = normSq v := Real.sq_sqrt (normSq_nonneg v)
  set s := Real.sqrt c with hs
  set n := Real.sqrt (normSq v) with hnn
  rw [← hc2, ← hn2]
  field_simp
  ring

theorem expMap_interior (x v r : List ℝ) (c : ℝ) (hc : 0 < c)
    (hx : c * normSq x < 1) (hr : expMap x v c = .ok r) :
    c * normSq r < 1 := by
  obtain ⟨hlen, -, hcase⟩ := expMap_ok x v c r hr
  rcases hcase with ⟨-, rfl⟩ | ⟨hv, hadd⟩
  · exact hx
  · obtain ⟨hlen2, -, -, rfl⟩ := mobiusAdd_ok _ _ _ _ hadd
    apply interior_mobiusRaw _ _ _ hlen2 hc hx
    rw [normSq_expStep x v c hc hv]
    exact tanh_sq_lt_one _

theorem frechetLoop_interior (pts : List (List ℝ)) (c tol : ℝ) (dim : ℕ)
    (hc : 0 < c) (hlt : c < 4e18) :
    ∀ (fuel : ℕ) (mu r : List ℝ), c * normSq mu < 1 →
      frechetLoop pts c tol dim fuel mu = .ok r → c * normSq r < 1 := by
  intro fuel
  induction fuel with
  | zero =>
    intro mu r hmu h
    obtain rfl : mu = r := by simpa [frechetLoop] using h
    exact hmu
  | succ n ih =>
    intro mu r hmu h
    simp only [frechetLoop] at h
    revert h
    split
    · intro h; exact absurd h (by simp)
    · next grad hgrad =>
      split
      · intro h
        obtain rfl : mu = r := by simpa using h
        exact hmu
      · split
        · intro h; exact absurd h (by simp)
        · next mu1 hmu1 =>
          intro h
          exact ih _ r
            (interior_projectToBall mu1 c hc hlt
              (expMap_interior mu grad mu1 c hc hmu hmu1)) h

theorem frechetMean_ok (pts : List (List ℝ)) (c : ℝ) (maxIter : ℕ) (tol : ℝ)
    (r : List ℝ) (h : frechetMean pts c maxIter tol = .ok r) :
    pts ≠ [] ∧ 0 < c ∧
      frechetLoop pts c tol (pts.headD []).length (max 1 maxIter)
        (projectToBall (pts.headD []) c) = .ok r := by
  unfold frechetMean at h
  split_ifs at h with h1 h2 h3
  exact ⟨by simpa [List.isEmpty_iff] using h1, lt_of_not_le h2, h⟩

theorem headD_mem (pts : List (List ℝ)) (h : pts ≠ []) : pts.headD [] ∈ pts := by
  cases pts with
  | nil => exact absurd rfl h
  | cons p ps => simp [List.headD]

/-! ### Helper evaluation lemmas -/

theorem normSq_map_zero (l : List ℝ) : normSq (l.map fun _ => (0 : ℝ)) = 0 := by
  induction l with
  | nil => simp [normSq, dot]
  | cons a as ih => simpa [normSq, dot_cons] using ih

theorem dot_replicate_zero (x : List ℝ) (n : ℕ) :
    dot x (List.replicate n 0) = 0 := by
  induction x generalizing n with
  | nil => simp [dot]
  | cons a as ih =>
    cases n with
    | zero => simp [dot]
    | succ m => simpa [List.replicate_succ, dot_cons] using ih m

theorem normSq_replicate_zero (n : ℕ) : normSq (List.replicate n (0 : ℝ)) = 0 :=
  dot_replicate_zero _ n

theorem zipWith_add_replicate_zero (l : List ℝ) (n : ℕ) (h : n = l.length) :
    List.zipWith (· + ·) (List.replicate n (0 : ℝ)) l = l := by
  subst h
  induction l with
  | nil => simp
  | cons a as ih => simp [List.replicate_succ, ih]

theorem projectToBall_unchanged (x : List ℝ) (c : ℝ)
    (h : Real.sqrt (max (normSq x) 0) ≤ 1 / Real.sqrt c - 1e-9) :
    projectToBall x c = x := by
  unfold projectToBall
  rw [if_pos (Or.inl h)]

theorem logMap_self (p : List ℝ) (c : ℝ) (hc : 0 < c)
    (hden : 1e-15 ≤ (1 - c * normSq p) ^ 2) :
    logMap p p c = .ok (List.replicate p.length 0) := by
  have hdeneq : mobiusDen (p.map fun t => -t) p c = (1 - c * normSq p) ^ 2 := by
    unfold mobiusDen
    rw [dot_map_neg_left, normSq_map_neg, show dot p p = normSq p from rfl]
    ring
  have hadd : mobiusAdd (p.map fun xi => -xi) p c =
      .ok (mobiusRaw (p.map fun xi => -xi) p c) := by
    apply mobiusAdd_eq_ok _ _ _ (by simp) hc
    rw [hdeneq, abs_of_nonneg (sq_nonneg _)] at *
    exact hden
  have hNL : mobiusNumL (p.map fun xi => -xi) p c = 1 - c * normSq p := by
    unfold mobiusNumL
    rw [dot_map_neg_left, show dot p p = normSq p from rfl]
    ring
  have hNR : mobiusNumR (p.map fun xi => -xi) c = 1 - c * normSq p := by
    unfold mobiusNumR
    rw [normSq_map_neg]
  have hdelta : mobiusRaw (p.map fun xi => -xi) p c = List.replicate p.length 0 := by
    show List.zipWith (fun xi yi =>
        (mobiusNumL (p.map fun xi => -xi) p c * xi +
          mobiusNumR (p.map fun xi => -xi) c * yi) /
        mobiusDen (p.map fun xi => -xi) p c) (p.map fun xi => -xi) p = _
    rw [hNL, hNR, hdeneq, List.zipWith_map_left, List.zipWith_same]
    have hfun : (fun a : ℝ => ((1 - c * normSq p) * -a + (1 - c * normSq p) * a) /
        (1 - c * normSq p) ^ 2) = fun _ : ℝ => (0 : ℝ) := by
      funext a
      rw [show (1 - c * normSq p) * -a + (1 - c * normSq p) * a = 0 from by ring,
        zero_div]
    rw [hfun]
    simp
  unfold logMap
  rw [if_neg (by simp), if_neg (not_le.mpr hc), hadd, hdelta]
  norm_num [normSq_replicate_zero, Real.sqrt_zero]

theorem meanGrad_singleton (p : List ℝ) (c : ℝ) (hc : 0 < c)
    (hden : 1e-15 ≤ (1 - c * normSq p) ^ 2) :
    meanGrad [p] p c p.length = .ok (List.replicate p.length 0) := by
  unfold meanGrad
  have hbind : (logMap p p c >>= fun lg =>
      (pure [lg] : Except MathError (List (List ℝ)))) =
      Except.ok [List.replicate p.length 0] := by
    rw [logMap_self p c hc hden]
    rfl
  rw [show [p].mapM (fun q => logMap p q c) =
      logMap p p c >>= fun lg => pure [lg] from rfl, hbind]
  have hfold : List.zipWith (· + ·) (List.replicate p.length (0 : ℝ))
      (List.replicate p.length (0 : ℝ)) = List.replicate p.length (0 : ℝ) :=
    zipWith_add_replicate_zero _ _ (List.length_replicate _ _).symm
  simp [hfold, List.map_replicate]

theorem frechetMean_singleton_eval (p : List ℝ) (c : ℝ) (mi : ℕ) (tol : ℝ)
    (hc : 0 < c)
    (hproj : Real.sqrt (normSq p) ≤ 1 / Real.sqrt c - 1e-9)
    (hden : 1e-15 ≤ (1 - c * normSq p) ^ 2) :
    frechetMean [p] c mi tol = .ok p := by
  have hmu : projectToBall p c = p :=
    projectToBall_unchanged p c (by rw [max_normSq]; exact hproj)
  obtain ⟨k, hk⟩ : ∃ k, max 1 mi = k + 1 := ⟨max 1 mi - 1, by omega⟩
  unfold frechetMean
  rw [if_neg (by simp), if_neg (not_le.mpr hc), if_neg (by simp)]
  simp only [List.headD_cons]
  rw [hk, hmu]
  simp only [frechetLoop]
  rw [meanGrad_singleton p c hc hden]
  norm_num [normSq_replicate_zero, Real.sqrt_zero, le_max_iff]

theorem logMap_eval (x y delta : List ℝ) (c : ℝ) (h1 : x.length = y.length)
    (hc : 0 < c)
    (hadd : mobiusAdd (x.map fun xi => -xi) y c = .ok delta)
    (hbig : ¬(Real.sqrt (max (normSq delta) 0) < 1e-15)) :
    logMap x y c = .ok (delta.map (fun di =>
      logFactor x delta c * di / Real.sqrt (max (normSq delta) 0))) := by
  unfold logMap
  rw [if_neg (by simp [h1]), if_neg (not_le.mpr hc), hadd]
  show (if Real.sqrt (max (normSq delta) 0) < 1e-15 then
      Except.ok (x.map fun _ => 0)
    else Except.ok (delta.map fun di =>
      logFactor x delta c * di / Real.sqrt (max (normSq delta) 0))) = _
  rw [if_neg hbig]

theorem meanGrad_single_eval (q mu lg : List ℝ) (c : ℝ) (dim : ℕ)
    (hlog : logMap mu q c = .ok lg) (hdim : dim = lg.length) :
    meanGrad [q] mu c dim = .ok lg := by
  unfold meanGrad
  have hbind : (logMap mu q c >>= fun l =>
      (pure [l] : Except MathError (List (List ℝ)))) = Except.ok [lg] := by
    rw [hlog]
    rfl
  rw [show [q].mapM (fun p => logMap mu p c) =
      logMap mu q c >>= fun l => pure [l] from rfl, hbind]
  show Except.ok ((List.foldl (fun acc lg => List.zipWith (· + ·) acc lg)
      (List.replicate dim 0) [lg]).map
        (fun g => g * (1 / (([q].length : ℕ) : ℝ)))) = Except.ok lg
  rw [List.foldl_cons, List.foldl_nil, zipWith_add_replicate_zero lg dim hdim]
  simp

theorem meanGrad_pair_eval (q1 q2 mu lg1 lg2 : List ℝ) (c : ℝ) (dim : ℕ)
    (hlog1 : logMap mu q1 c = .ok lg1) (hlog2 : logMap mu q2 c = .ok lg2)
    (hdim : dim = lg1.length) :
    meanGrad [q1, q2] mu c dim =
      .ok ((List.zipWith (· + ·) lg1 lg2).map (fun g => g * (1 / 2))) := by
  unfold meanGrad
  have hbind : (logMap mu q1 c >>= fun l1 =>
      logMap mu q2 c >>= fun l2 =>
      (pure [l1, l2] : Except MathError (List (List ℝ)))) =
      Except.ok [lg1, lg2] := by
    rw [hlog1, hlog2]
    rfl
  rw [show [q1, q2].mapM (fun p => logMap mu p c) =
      logMap mu q1 c >>= fun l1 => logMap mu q2 c >>= fun l2 =>
        pure [l1, l2] from rfl, hbind]
  show Except.ok ((List.foldl (fun acc lg => List.zipWith (· + ·) acc lg)
      (List.replicate dim 0) [lg1, lg2]).map
        (fun g => g * (1 / (([q1, q2].length : ℕ) : ℝ)))) = _
  rw [List.foldl_cons, List.foldl_cons, List.foldl_nil,
    zipWith_add_replicate_zero lg1 dim hdim]
  norm_num

theorem frechetLoop_stop (pts : List (List ℝ)) (c tol : ℝ) (dim n : ℕ)
    (mu grad : List ℝ) (hgrad : meanGrad pts mu c dim = .ok grad)
    (hsmall : Real.sqrt (max (normSq grad) 0) ≤ max tol 1e-15) :
    frechetLoop pts c tol dim (n + 1) mu = .ok mu := by
  simp only [frechetLoop]
  rw [hgrad]
  show (if Real.sqrt (max (normSq grad) 0) ≤ max tol 1e-15 then Except.ok mu
    else match expMap mu grad c with
      | .error e => .error e
      | .ok mu1 => frechetLoop pts c tol dim n (projectToBall mu1 c)) = _
  rw [if_pos hsmall]

theorem frechetLoop_step (pts : List (List ℝ)) (c tol : ℝ) (dim n : ℕ)
    (mu grad mu1 : List ℝ) (hgrad : meanGrad pts mu c dim = .ok grad)
    (hbig : ¬(Real.sqrt (max (normSq grad) 0) ≤ max tol 1e-15))
    (hexp : expMap mu grad c = .ok mu1) :
    frechetLoop pts c tol dim (n + 1) mu =
      frechetLoop pts c tol dim n (projectToBall mu1 c) := by
  simp only [frechetLoop]
  rw [hgrad]
  show (if Real.sqrt (max (normSq grad) 0) ≤ max tol 1e-15 then Except.ok mu
    else match expMap mu grad c with
      | .error e => .error e
      | .ok mu1 => frechetLoop pts c tol dim n (projectToBall mu1 c)) = _
  rw [if_neg hbig, hexp]

theorem frechetMean_eval (pts : List (List ℝ)) (c : ℝ) (mi : ℕ) (tol : ℝ)
    (hne : pts ≠ []) (hc : 0 < c)
    (hdims : ∀ p ∈ pts, p.length = (pts.headD []).length) :
    frechetMean pts c mi tol =
      frechetLoop pts c tol (pts.headD []).length (max 1 mi)
        (projectToBall (pts.headD []) c) := by
  unfold frechetMean
  rw [if_neg (by simpa [List.isEmpty_iff] using hne), if_neg (not_le.mpr hc),
    if_neg (by
      simp only [List.any_eq_true, decide_eq_true_eq, not_exists]
      push_neg
      intro p hp
      exact hdims p hp)]

theorem dot_single (a b : ℝ) : dot [a] [b] = a * b := by simp [dot]

theorem normSq_single (a : ℝ) : normSq [a] = a * a := by simp [normSq, dot]

theorem zipWith_replicate_zero_right (F : ℝ → ℝ → ℝ) (hF : ∀ a, F a 0 = a) :
    ∀ x : List ℝ, List.zipWith F x (List.replicate x.length 0) = x := by
  intro x
  induction x with
  | nil => simp
  | cons a as ih => simp [List.replicate_succ, hF, ih]

theorem mobiusAdd_degenerate (x y : List ℝ) (c : ℝ) (h1 : x.length = y.length)
    (hc : 0 < c) (h3 : |mobiusDen x y c| < 1e-15) :
    mobiusAdd x y c = .error .degenerateOperation := by
  unfold mobiusAdd
  rw [if_neg (by simp [h1]), if_neg (not_le.mpr hc), if_pos h3]

theorem mobiusAdd_zero_left (b : ℝ) (c : ℝ) (hc : 0 < c) :
    mobiusAdd [(0 : ℝ)] [b] c = .ok [b] := by
  have hden : mobiusDen [(0 : ℝ)] [b] c = 1 := by
    unfold mobiusDen
    rw [dot_single, normSq_single]
    ring
  rw [mobiusAdd_eq_ok _ _ _ (by simp) hc (by rw [hden]; norm_num)]
  congr 1
  unfold mobiusRaw
  simp only [List.zipWith_cons_cons, List.zipWith_nil_right, List.cons.injEq,
    and_true]
  rw [hden]
  unfold mobiusNumR
  rw [normSq_single]
  ring

theorem mobiusAdd_zero_left₁ (z : List ℝ) (hz : z.length = 1) (c : ℝ)
    (hc : 0 < c) : mobiusAdd [(0 : ℝ)] z c = .ok z := by
  obtain ⟨b, rfl⟩ : ∃ b, z = [b] := by
    cases z with
    | nil => simp at hz
    | cons a as =>
      cases as with
      | nil => exact ⟨a, rfl⟩
      | cons b bs => simp at hz
  exact mobiusAdd_zero_left b c hc

theorem gyro_eval (u v w uv vw left : List ℝ) (c : ℝ)
    (h1 : mobiusAdd u v c = .ok uv) (h2 : mobiusAdd v w c = .ok vw)
    (h3 : mobiusAdd u vw c = .ok left) :
    gyro u v w c = mobiusAdd (uv.map (fun z => -z)) left c := by
  unfold gyro
  rw [h1, h2]
  show (match mobiusAdd u vw c with
    | Except.error e => Except.error e
    | Except.ok left => mobiusAdd (uv.map (fun z => -z)) left c) = _
  rw [h3]

theorem gyro_ok (u v w r : List ℝ) (c : ℝ) (h : gyro u v w c = .ok r) :
    ∃ uv vw left, mobiusAdd u v c = .ok uv ∧ mobiusAdd v w c = .ok vw ∧
      mobiusAdd u vw c = .ok left ∧
      mobiusAdd (uv.map fun z => -z) left c = .ok r := by
  unfold gyro at h
  revert h
  split
  · intro h; exact absurd h (by simp)
  · next uv huv =>
    split
    · intro h; exact absurd h (by simp)
    · next vw hvw =>
      split
      · intro h; exact absurd h (by simp)
      · next left hleft =>
        intro h
        exact ⟨uv, vw, left, huv, hvw, hleft, h⟩

theorem parallelTransport_eval (x y v g : List ℝ) (c : ℝ)
    (h1 : x.length = y.length) (h2 : x.length = v.length) (hc : 0 < c)
    (hg : gyro y (x.map fun xi => -xi) v c = .ok g) :
    parallelTransport x y v c =
      .ok (g.map fun gi => (lambdaAt x c / lambdaAt y c) * gi) := by
  unfold parallelTransport
  rw [if_neg (by simp only [not_or, not_not]; exact ⟨h1, h2⟩),
    if_neg (not_le.mpr hc), hg]

theorem parallelTransport_gyro_error (x y v : List ℝ) (c : ℝ) (e : MathError)
    (h1 : x.length = y.length) (h2 : x.length = v.length) (hc : 0 < c)
    (hg : gyro y (x.map fun xi => -xi) v c = .error e) :
    parallelTransport x y v c = .error e := by
  unfold parallelTransport
  rw [if_neg (by simp only [not_or, not_not]; exact ⟨h1, h2⟩),
    if_neg (not_le.mpr hc), hg]

theorem parallelTransport_ok (x y v r : List ℝ) (c : ℝ)
    (h : parallelTransport x y v c = .ok r) :
    0 < c ∧ ∃ g, gyro y (x.map fun xi => -xi) v c = .ok g ∧
      r = g.map (fun gi => (lambdaAt x c / lambdaAt y c) * gi) := by
  unfold parallelTransport at h
  split_ifs at h with hd hc0
  refine ⟨lt_of_not_le hc0, ?_⟩
  revert h
  split
  · intro h; exact absurd h (by simp)
  · next g hg =>
    intro h
    exact ⟨g, hg, by simpa using h.symm⟩

theorem logMap_add_error (x y : List ℝ) (c : ℝ) (h1 : x.length = y.length)
    (hc : 0 < c) (e : MathError)
    (hadd : mobiusAdd (x.map fun xi => -xi) y c = .error e) :
    logMap x y c = .error e := by
  unfold logMap
  rw [if_neg (by simp [h1]), if_neg (not_le.mpr hc), hadd]

theorem exp_third_lt : Real.exp (1/3) < 1.4 := by
  by_contra hcon
  push_neg at hcon
  have h3 : Real.exp (1/3) ^ 3 = Real.exp 1 := by
    rw [← Real.exp_nat_mul]
    norm_num
  have hpow : (1.4 : ℝ) ^ 3 ≤ Real.exp (1/3) ^ 3 :=
    pow_le_pow_left (by norm_num) hcon 3
  rw [h3] at hpow
  have := Real.exp_one_lt_d9
  norm_num at hpow
  linarith

/-! ### Claims -/

/-- C3: for equal-length `x`, `y` and `c > 0`, `mobius_add(x, y, c)` raises
`DegenerateOperation` iff `|den| < 1e-15` where
`den = 1 + 2c⟨x,y⟩ + c²‖x‖²‖y‖²`; otherwise it returns the vector with
components `(num_left·x_i + num_right·y_i)/den`, with
`num_left = 1 + 2c⟨x,y⟩ + c‖y‖²` and `num_right = 1 − c‖x‖²`. -/
theorem mobius_add_formula (x y : List ℝ) (c : ℝ)
    (hlen : x.length = y.length) (hc : 0 < c) :
    (mobiusAdd x y c = .error .degenerateOperation ↔
      |1 + 2 * c * dot x y + (c * c) * normSq x * normSq y| < 1e-15) ∧
    (1e-15 ≤ |1 + 2 * c * dot x y + (c * c) * normSq x * normSq y| →
      mobiusAdd x y c = .ok (List.zipWith (fun xi yi =>
        ((1 + 2 * c * dot x y + c * normSq y) * xi + (1 - c * normSq x) * yi) /
        (1 + 2 * c * dot x y + (c * c) * normSq x * normSq y)) x y)) := by
  have hred : mobiusAdd x y c =
      if |mobiusDen x y c| < 1e-15 then .error .degenerateOperation
      else .ok (mobiusRaw x y c) := by
    unfold mobiusAdd
    rw [if_neg (by simp [hlen]), if_neg (not_le.mpr hc)]
  constructor
  · rw [hred]
    split_ifs with hd
    · exact iff_of_true rfl hd
    · exact iff_of_false (by simp) hd
  · intro hge
    have hge' : (1e-15 : ℝ) ≤ |mobiusDen x y c| := hge
    rw [hred, if_neg (not_lt.mpr hge')]
    rfl

/-- Witness for C3 at `x = [1/2]`, `y = [1/4]`, `c = 1`: the denominator is
`81/64`, far from zero, and the formula gives `[2/3]`. -/
theorem mobius_add_formula_witness :
    mobiusAdd [(1 : ℝ)/2] [(1 : ℝ)/4] 1 = .ok [2/3] ∧
    ¬mobiusAdd [(1 : ℝ)/2] [(1 : ℝ)/4] 1 = .error .degenerateOperation := by
  have h := mobius_add_formula [(1 : ℝ)/2] [(1 : ℝ)/4] 1 (by simp) (by norm_num)
  have hden : (1e-15 : ℝ) ≤
      |1 + 2 * 1 * dot [(1 : ℝ)/2] [(1 : ℝ)/4] +
        (1 * 1) * normSq [(1 : ℝ)/2] * normSq [(1 : ℝ)/4]| := by
    rw [dot_single, normSq_single, normSq_single, abs_of_pos (by norm_num)]
    norm_num
  constructor
  · rw [h.2 hden]
    congr 1
    rw [dot_single, normSq_single, normSq_single]
    norm_num
  · rw [h.2 hden]
    simp

/-- C8: for `c > 0` and valid interior `x`, Möbius addition with the
all-zeros vector of the same dimension returns `x` itself: the zero vector
is the identity element. -/
theorem mobius_add_zero_identity (x : List ℝ) (c : ℝ) (hc : 0 < c)
    (hx : c * normSq x < 1) :
    mobiusAdd x (List.replicate x.length 0) c = .ok x := by
  have hd0 : dot x (List.replicate x.length 0) = 0 := dot_replicate_zero x _
  have hn0 : normSq (List.replicate x.length (0 : ℝ)) = 0 := normSq_replicate_zero _
  have hden : mobiusDen x (List.replicate x.length 0) c = 1 := by
    unfold mobiusDen
    rw [hd0, hn0]
    ring
  have hnl : mobiusNumL x (List.replicate x.length 0) c = 1 := by
    unfold mobiusNumL
    rw [hd0, hn0]
    ring
  rw [mobiusAdd_eq_ok _ _ _ (by simp) hc (by rw [hden]; norm_num)]
  congr 1
  show List.zipWith _ x (List.replicate x.length 0) = x
  simp only [hnl, hden]
  exact zipWith_replicate_zero_right _ (fun a => by simp) x

/-- Witness for C8 at `x = [1/2]`, `c = 1`. -/
theorem mobius_add_zero_identity_witness :
    mobiusAdd [(1 : ℝ)/2] [(0 : ℝ)] 1 = .ok [1/2] := by
  have h := mobius_add_zero_identity [(1 : ℝ)/2] 1 (by norm_num)
    (by rw [normSq_single]; norm_num)
  simpa using h

/-- C9: for a single point `p` with `‖p‖ ≤ 1/√c − 1e-9` and
`(1 − c‖p‖²)² ≥ 1e-15`, and any `c > 0`, `frechet_mean([p], c)` converges in
the first round and returns `p` exactly: the projection leaves `p` alone,
the gradient `log_map(p, p, c)` is the zero vector, and the tolerance test
is met immediately (for any `max_iter` and `tol`). -/
theorem frechet_mean_singleton (p : List ℝ) (c : ℝ) (mi : ℕ) (tol : ℝ)
    (hc : 0 < c)
    (hnorm : Real.sqrt (normSq p) ≤ 1 / Real.sqrt c - 1e-9)
    (hden : 1e-15 ≤ (1 - c * normSq p) ^ 2) :
    frechetMean [p] c mi tol = .ok p :=
  frechetMean_singleton_eval p c mi tol hc hnorm hden

/-- Witness for C9 at `p = [1/2]`, `c = 1`, default `max_iter = 64` and
`tol = 1e-8`. -/
theorem frechet_mean_singleton_witness :
    frechetMean [[(1 : ℝ)/2]] 1 64 1e-8 = .ok [1/2] := by
  apply frechet_mean_singleton _ _ _ _ (by norm_num)
  · rw [normSq_single, show (1 : ℝ)/2 * (1/2) = (1/2) ^ 2 by norm_num,
      Real.sqrt_sq (by norm_num), Real.sqrt_one]
    norm_num
  · rw [normSq_single]
    norm_num

/-- C4: mismatched-length operands raise `DimensionMismatch` for every
function of §6; `c ≤ 0` (with well-formed operands) raises
`InvalidCurvature`; an empty `points` sequence raises `EmptyInput` in
`frechet_mean`. -/
theorem error_propagation (x y v : List ℝ) (c : ℝ) (pts : List (List ℝ))
    (mi : ℕ) (tol : ℝ) :
    (x.length ≠ y.length →
      mobiusAdd x y c = .error .dimensionMismatch ∧
      expMap x y c = .error .dimensionMismatch ∧
      logMap x y c = .error .dimensionMismatch ∧
      riemannianGradient x y c = .error .dimensionMismatch ∧
      parallelTransport x y v c = .error .dimensionMismatch) ∧
    (c ≤ 0 → x.length = y.length → x.length = v.length →
      mobiusAdd x y c = .error .invalidCurvature ∧
      expMap x y c = .error .invalidCurvature ∧
      logMap x y c = .error .invalidCurvature ∧
      riemannianGradient x y c = .error .invalidCurvature ∧
      parallelTransport x y v c = .error .invalidCurvature) ∧
    (pts ≠ [] → c ≤ 0 → frechetMean pts c mi tol = .error .invalidCurvature) ∧
    (frechetMean [] c mi tol = .error .emptyInput) ∧
    (pts ≠ [] → 0 < c → (∃ p ∈ pts, p.length ≠ (pts.headD []).length) →
      frechetMean pts c mi tol = .error .dimensionMismatch) := by
  refine ⟨fun h => ⟨?_, ?_, ?_, ?_, ?_⟩,
    fun hc0 hxy hxv => ⟨?_, ?_, ?_, ?_, ?_⟩, fun hne hc0 => ?_, ?_,
    fun hne hc hmis => ?_⟩
  · unfold mobiusAdd; rw [if_pos h]
  · unfold expMap; rw [if_pos h]
  · unfold logMap; rw [if_pos h]
  · unfold riemannianGradient; rw [if_pos h]
  · unfold parallelTransport; rw [if_pos (Or.inl h)]
  · unfold mobiusAdd; rw [if_neg (by simp [hxy]), if_pos hc0]
  · unfold expMap; rw [if_neg (by simp [hxy]), if_pos hc0]
  · unfold logMap; rw [if_neg (by simp [hxy]), if_pos hc0]
  · unfold riemannianGradient; rw [if_neg (by simp [hxy]), if_pos hc0]
  · unfold parallelTransport
    rw [if_neg (by simp only [not_or, not_not]; exact ⟨hxy, hxv⟩), if_pos hc0]
  · unfold frechetMean
    rw [if_neg (by simpa [List.isEmpty_iff] using hne), if_pos hc0]
  · unfold frechetMean
    rw [if_pos (by simp)]
  · unfold frechetMean
    rw [if_neg (by simpa [List.isEmpty_iff] using hne),
      if_neg (not_le.mpr hc), if_pos (by
        obtain ⟨p, hp, hnep⟩ := hmis
        simp only [List.any_eq_true, decide_eq_true_eq]
        exact ⟨p, hp, hnep⟩)]

/-- Witness for C4: concrete instances of each error case. -/
theorem error_propagation_witness :
    mobiusAdd [(0 : ℝ)] [0, 0] 1 = .error .dimensionMismatch ∧
    mobiusAdd [(0 : ℝ)] [0] 0 = .error .invalidCurvature ∧
    frechetMean [[(0 : ℝ)]] 0 64 1e-8 = .error .invalidCurvature ∧
    frechetMean ([] : List (List ℝ)) 1 64 1e-8 = .error .emptyInput ∧
    frechetMean [[(0 : ℝ)], [0, 0]] 1 64 1e-8 = .error .dimensionMismatch := by
  refine ⟨?_, ?_, ?_, ?_, ?_⟩
  · exact ((error_propagation [(0 : ℝ)] [0, 0] [0] 1 [] 64 1e-8).1 (by norm_num)).1
  · exact ((error_propagation [(0 : ℝ)] [0] [0] 0 [] 64 1e-8).2.1
      (le_refl 0) rfl rfl).1
  · exact (error_propagation [(0 : ℝ)] [0] [0] 0 [[(0 : ℝ)]] 64 1e-8).2.2.1
      (by simp) (le_refl 0)
  · exact (error_propagation [] [] [] 1 [] 64 1e-8).2.2.2.1
  · exact (error_propagation [] [] [] 1 [[(0 : ℝ)], [0, 0]] 64 1e-8).2.2.2.2
      (by simp) (by norm_num) ⟨[0, 0], by simp, by simp⟩

/-- C10: the precondition checks have a fixed precedence: in the five
point/tangent functions the dimension check precedes the curvature check, so
simultaneous violations raise `DimensionMismatch`; in `frechet_mean` the
order is `EmptyInput`, then `InvalidCurvature`, then `DimensionMismatch`, so
an empty sequence raises `EmptyInput` even for `c ≤ 0`, and a non-empty
dimension-mismatched sequence with `c ≤ 0` raises `InvalidCurvature`. -/
theorem check_precedence (x y v : List ℝ) (c : ℝ) (pts : List (List ℝ))
    (mi : ℕ) (tol : ℝ) :
    (x.length ≠ y.length → c ≤ 0 →
      mobiusAdd x y c = .error .dimensionMismatch ∧
      expMap x y c = .error .dimensionMismatch ∧
      logMap x y c = .error .dimensionMismatch ∧
      riemannianGradient x y c = .error .dimensionMismatch ∧
      parallelTransport x y v c = .error .dimensionMismatch) ∧
    (c ≤ 0 → frechetMean [] c mi tol = .error .emptyInput) ∧
    (pts ≠ [] → c ≤ 0 → (∃ p ∈ pts, p.length ≠ (pts.headD []).length) →
      frechetMean pts c mi tol = .error .invalidCurvature) := by
  refine ⟨fun h _ => ⟨?_, ?_, ?_, ?_, ?_⟩, fun hc0 => ?_, fun hne hc0 _ => ?_⟩
  · unfold mobiusAdd; rw [if_pos h]
  · unfold expMap; rw [if_pos h]
  · unfold logMap; rw [if_pos h]
  · unfold riemannianGradient; rw [if_pos h]
  · unfold parallelTransport; rw [if_pos (Or.inl h)]
  · unfold frechetMean
    rw [if_pos (by simp)]
  · unfold frechetMean
    rw [if_neg (by simpa [List.isEmpty_iff] using hne), if_pos hc0]

/-- Witness for C10: with mismatched dimensions and `c = -1`
simultaneously, the five functions raise `DimensionMismatch`, while
`frechet_mean` raises `EmptyInput` on `[]` and `InvalidCurvature` on a
mismatched non-empty input. -/
theorem check_precedence_witness :
    mobiusAdd [(0 : ℝ)] [0, 0] (-1) = .error .dimensionMismatch ∧
    expMap [(0 : ℝ)] [0, 0] (-1) = .error .dimensionMismatch ∧
    logMap [(0 : ℝ)] [0, 0] (-1) = .error .dimensionMismatch ∧
    riemannianGradient [(0 : ℝ)] [0, 0] (-1) = .error .dimensionMismatch ∧
    parallelTransport [(0 : ℝ)] [0, 0] [0] (-1) = .error .dimensionMismatch ∧
    frechetMean ([] : List (List ℝ)) (-1) 64 1e-8 = .error .emptyInput ∧
    frechetMean [[(0 : ℝ)], [0, 0]] (-1) 64 1e-8 = .error .invalidCurvature := by
  have h := check_precedence [(0 : ℝ)] [0, 0] [0] (-1) [[(0 : ℝ)], [0, 0]] 64 1e-8
  have h1 := h.1 (by norm_num) (by norm_num)
  exact ⟨h1.1, h1.2.1, h1.2.2.1, h1.2.2.2.1, h1.2.2.2.2,
    h.2.1 (by norm_num),
    h.2.2 (by simp) (by norm_num) ⟨[0, 0], by simp, by simp⟩⟩

/-- C1 counterexample: at `x = [0.999998]`, `c = 1` the claim's guard holds
(`‖x‖ = 0.999998 > 0.999995 = clip_r/√c` and `‖x‖` is not ≈ 0), so the claim
demands a rescale to norm exactly `clip_r/√c = 0.999995`; the code instead
returns `x` unchanged (its safety radius is `1/√c − 1e-9 = 0.999999999`),
and the returned norm `0.999998` differs from `0.999995`. -/
theorem project_clip_counterexample :
    projectToBall [(0.999998 : ℝ)] 1 = [(0.999998 : ℝ)] ∧
    Real.sqrt (max (normSq [(0.999998 : ℝ)]) 0) = 0.999998 ∧
    (0.999995 : ℝ) / Real.sqrt 1 < 0.999998 ∧
    ¬((0.999998 : ℝ) ≤ 1e-15) ∧
    (0.999998 : ℝ) ≠ 0.999995 / Real.sqrt 1 := by
  have hn : Real.sqrt (max (normSq [(0.999998 : ℝ)]) 0) = 0.999998 := by
    rw [max_normSq, normSq_single,
      show (0.999998 : ℝ) * 0.999998 = 0.999998 ^ 2 by norm_num,
      Real.sqrt_sq (by norm_num)]
  refine ⟨?_, hn, ?_, by norm_num, ?_⟩
  · apply projectToBall_unchanged
    rw [hn, Real.sqrt_one]
    norm_num
  · rw [Real.sqrt_one]
    norm_num
  · rw [Real.sqrt_one]
    norm_num

/-- C1 (amended): for `c > 0`, the projection returns `x` unchanged when
`‖x‖ ≤ 1/√c − 1e-9` (the code's safety radius, an absolute `1e-9` margin,
not `clip_r/√c` with `clip_r ≈ 0.999995`) or when `‖x‖ ≤ 1e-15`; otherwise
it rescales `x` along its own direction, and (whenever the radius is
non-negative, i.e. `1e-9·√c ≤ 1`) the result has norm exactly
`1/√c − 1e-9`. -/
theorem project_to_ball_spec (x : List ℝ) (c : ℝ) (hc : 0 < c) :
    (Real.sqrt (max (normSq x) 0) ≤ 1 / Real.sqrt c - 1e-9 ∨
        Real.sqrt (max (normSq x) 0) ≤ 1e-15 →
      projectToBall x c = x) ∧
    (¬(Real.sqrt (max (normSq x) 0) ≤ 1 / Real.sqrt c - 1e-9 ∨
        Real.sqrt (max (normSq x) 0) ≤ 1e-15) →
      projectToBall x c = x.map (fun v =>
        ((1 / Real.sqrt c - 1e-9) / Real.sqrt (max (normSq x) 0)) * v) ∧
      (1e-9 * Real.sqrt c ≤ 1 →
        Real.sqrt (max (normSq (projectToBall x c)) 0) =
          1 / Real.sqrt c - 1e-9)) := by
  constructor
  · intro h
    unfold projectToBall
    rw [if_pos h]
  · intro h
    have hproj : projectToBall x c = x.map (fun v =>
        ((1 / Real.sqrt c - 1e-9) / Real.sqrt (max (normSq x) 0)) * v) := by
      unfold projectToBall
      rw [if_neg h]
    refine ⟨hproj, fun hmargin => ?_⟩
    push_neg at h
    obtain ⟨h1, h2⟩ := h
    rw [max_normSq] at h1 h2 hproj ⊢
    have hn : (0 : ℝ) < Real.sqrt (normSq x) := lt_trans (by norm_num) h2
    have hn2 : Real.sqrt (normSq x) ^ 2 = normSq x := Real.sq_sqrt (normSq_nonneg x)
    have hsc : 0 < Real.sqrt c := Real.sqrt_pos.mpr hc
    have hr : (0 : ℝ) ≤ 1 / Real.sqrt c - 1e-9 := by
      rw [sub_nonneg, le_div_iff hsc]
      linarith
    rw [hproj, normSq_map_mul,
      show ((1 / Real.sqrt c - 1e-9) / Real.sqrt (normSq x)) *
          ((1 / Real.sqrt c - 1e-9) / Real.sqrt (normSq x)) * normSq x =
        (1 / Real.sqrt c - 1e-9) ^ 2 * (normSq x / Real.sqrt (normSq x) ^ 2)
        from by ring,
      hn2, div_self (ne_of_gt (Real.sqrt_pos.mp hn)), mul_one, Real.sqrt_sq hr]

/-- Witness for C1 (amended) at `c = 1`: `[1/2]` is left unchanged, `[2]`
is rescaled and the rescaled vector has norm `1 − 1e-9`. -/
theorem project_to_ball_spec_witness :
    projectToBall [(1 : ℝ)/2] 1 = [(1 : ℝ)/2] ∧
    projectToBall [(2 : ℝ)] 1 = [(1 / Real.sqrt 1 - 1e-9) / 2 * 2] ∧
    Real.sqrt (max (normSq (projectToBall [(2 : ℝ)] 1)) 0) =
      1 / Real.sqrt 1 - 1e-9 := by
  have hn2 : Real.sqrt (max (normSq [(2 : ℝ)]) 0) = 2 := by
    rw [max_normSq, normSq_single, show (2 : ℝ) * 2 = 2 ^ 2 by norm_num,
      Real.sqrt_sq (by norm_num)]
  have hcond : ¬(Real.sqrt (max (normSq [(2 : ℝ)]) 0) ≤ 1 / Real.sqrt 1 - 1e-9 ∨
      Real.sqrt (max (normSq [(2 : ℝ)]) 0) ≤ 1e-15) := by
    rw [hn2, Real.sqrt_one]
    push_neg
    norm_num
  have h2 := (project_to_ball_spec [(2 : ℝ)] 1 (by norm_num)).2 hcond
  refine ⟨?_, ?_, ?_⟩
  · apply (project_to_ball_spec [(1 : ℝ)/2] 1 (by norm_num)).1
    left
    rw [max_normSq, normSq_single, show (1 : ℝ)/2 * (1/2) = (1/2) ^ 2 by norm_num,
      Real.sqrt_sq (by norm_num), Real.sqrt_one]
    norm_num
  · rw [h2.1, hn2]
    simp
  · exact h2.2 (by rw [Real.sqrt_one]; norm_num)

/-- C5 counterexample: at `c = 10²⁰` the projection's safety radius
`1/√c − 1e-9` is negative, so the interior input point `[5e-11]`
(`c·‖p‖² = 0.25 < 1`) is "rescaled" to `[-9e-10]`, and `frechet_mean`
converges immediately (the clamped conformal factor makes the gradient
tiny) returning a vector with `c·‖result‖² = 81 ≥ 1`: the boundary-safety
claim fails for every `c > 0`. -/
theorem boundary_safety_counterexample :
    frechetMean [[(5e-11 : ℝ)]] 1e20 64 1e-8 = .ok [(-9e-10 : ℝ)] ∧
    1e20 * normSq [(5e-11 : ℝ)] < 1 ∧
    1 ≤ 1e20 * normSq [(-9e-10 : ℝ)] := by
  have hsqc : Real.sqrt (1e20 : ℝ) = 1e10 := by
    rw [show (1e20 : ℝ) = (1e10) ^ 2 by norm_num, Real.sqrt_sq (by norm_num)]
  have hmu : projectToBall [(5e-11 : ℝ)] 1e20 = [(-9e-10 : ℝ)] := by
    unfold projectToBall
    have hn : Real.sqrt (max (normSq [(5e-11 : ℝ)]) 0) = 5e-11 := by
      rw [max_normSq, normSq_single,
        show (5e-11 : ℝ) * (5e-11) = (5e-11) ^ 2 by norm_num,
        Real.sqrt_sq (by norm_num)]
    rw [hn, hsqc, if_neg (by push_neg; constructor <;> norm_num)]
    simp only [List.map_cons, List.map_nil, List.cons.injEq, and_true]
    norm_num
  have hmapneg : List.map (fun xi => -xi) [(-9e-10 : ℝ)] = [(9e-10 : ℝ)] := by
    simp
  have hden2 : mobiusDen [(9e-10 : ℝ)] [(5e-11 : ℝ)] 1e20 = 30.25 := by
    unfold mobiusDen
    rw [dot_single, normSq_single, normSq_single]
    norm_num
  have hadd : mobiusAdd (List.map (fun xi => -xi) [(-9e-10 : ℝ)])
      [(5e-11 : ℝ)] 1e20 = .ok [(19/110000000000 : ℝ)] := by
    rw [hmapneg, mobiusAdd_eq_ok _ _ _ (by simp) (by norm_num)
      (by rw [hden2, abs_of_pos (by norm_num)]; norm_num)]
    congr 1
    unfold mobiusRaw
    simp only [List.zipWith_cons_cons, List.zipWith_nil_right, List.cons.injEq,
      and_true]
    unfold mobiusNumL mobiusNumR mobiusDen
    rw [dot_single, normSq_single, normSq_single]
    norm_num
  have hdn : Real.sqrt (max (normSq [(19/110000000000 : ℝ)]) 0) =
      19/110000000000 := by
    rw [max_normSq, normSq_single,
      show (19/110000000000 : ℝ) * (19/110000000000) =
        (19/110000000000) ^ 2 by ring, Real.sqrt_sq (by norm_num)]
  have hlog : logMap [(-9e-10 : ℝ)] [(5e-11 : ℝ)] 1e20 =
      .ok [logFactor [(-9e-10 : ℝ)] [(19/110000000000 : ℝ)] 1e20 *
        (19/110000000000) / (19/110000000000)] := by
    rw [logMap_eval _ _ _ _ (by simp) (by norm_num) hadd
      (by rw [hdn]; norm_num)]
    simp only [List.map_cons, List.map_nil]
    rw [hdn]
  have hlam : lambdaAt [(-9e-10 : ℝ)] 1e20 = 2e15 := by
    unfold lambdaAt
    rw [normSq_single, max_eq_right (by norm_num)]
    norm_num
  have hF_eq : logFactor [(-9e-10 : ℝ)] [(19/110000000000 : ℝ)] 1e20 =
      1e-25 * atanh (1 - 1e-15) := by
    unfold logFactor
    rw [hlam, hsqc, hdn, min_eq_right (by norm_num)]
    congr 1
    norm_num
  have hlog2 : logMap [(-9e-10 : ℝ)] [(5e-11 : ℝ)] 1e20 =
      .ok [1e-25 * atanh (1 - 1e-15)] := by
    rw [hlog, hF_eq, mul_div_assoc, div_self (by norm_num), mul_one]
  have hat : atanh (1 - 1e-15) = Real.log (2e15 - 1) / 2 := by
    unfold atanh
    rw [show ((1 + (1 - 1e-15)) / (1 - (1 - 1e-15)) : ℝ) = 2e15 - 1 by norm_num]
  have hG0 : (0 : ℝ) ≤ 1e-25 * atanh (1 - 1e-15) := by
    rw [hat]
    have := Real.log_nonneg (by norm_num : (1 : ℝ) ≤ 2e15 - 1)
    positivity
  have hG1 : (1e-25 : ℝ) * atanh (1 - 1e-15) ≤ 1e-8 := by
    rw [hat]
    have := Real.log_le_sub_one_of_pos (by norm_num : (0 : ℝ) < 2e15 - 1)
    nlinarith
  have hgrad : meanGrad [[(5e-11 : ℝ)]] [(-9e-10 : ℝ)] 1e20 1 =
      .ok [1e-25 * atanh (1 - 1e-15)] :=
    meanGrad_single_eval _ _ _ _ _ hlog2 (by simp)
  have hgn : Real.sqrt (max (normSq [(1e-25 : ℝ) * atanh (1 - 1e-15)]) 0) =
      1e-25 * atanh (1 - 1e-15) := by
    rw [max_normSq, normSq_single,
      show (1e-25 : ℝ) * atanh (1 - 1e-15) * (1e-25 * atanh (1 - 1e-15)) =
        (1e-25 * atanh (1 - 1e-15)) ^ 2 by ring, Real.sqrt_sq hG0]
  have hloop : frechetLoop [[(5e-11 : ℝ)]] 1e20 1e-8 1 (63 + 1)
      [(-9e-10 : ℝ)] = .ok [(-9e-10 : ℝ)] :=
    frechetLoop_stop _ _ _ _ _ _ _ hgrad
      (by rw [hgn, max_eq_left (by norm_num)]; exact hG1)
  refine ⟨?_, ?_, ?_⟩
  · rw [frechetMean_eval _ _ _ _ (by simp) (by norm_num)
      (by intro p hp; simp at hp; simp [hp])]
    simp only [List.headD_cons]
    rw [hmu, show (max 1 64 : ℕ) = 63 + 1 from rfl]
    show frechetLoop [[(5e-11 : ℝ)]] 1e20 1e-8 1 (63 + 1) [(-9e-10 : ℝ)] =
      Except.ok [(-9e-10 : ℝ)]
    exact hloop
  · rw [normSq_single]
    norm_num
  · rw [normSq_single]
    norm_num

/-- C5 (amended): for `c > 0` and interior inputs, every vector returned by
`exp_map` satisfies `c·‖result‖² < 1`; the same holds for `frechet_mean`
provided additionally `c < 4·10¹⁸` (so that the projection's safety radius
`1/√c − 1e-9` keeps `c·r² < 1`; for larger `c` the projection itself can
produce vectors outside the ball, see the counterexample). -/
theorem boundary_safety (x v r : List ℝ) (c : ℝ) (pts : List (List ℝ))
    (mi : ℕ) (tol : ℝ) (hc : 0 < c) :
    (c * normSq x < 1 → expMap x v c = .ok r → c * normSq r < 1) ∧
    (c < 4e18 → (∀ p ∈ pts, c * normSq p < 1) →
      frechetMean pts c mi tol = .ok r → c * normSq r < 1) := by
  constructor
  · intro hx hok
    exact expMap_interior x v r c hc hx hok
  · intro hlt hall hok
    obtain ⟨hne, -, hloop⟩ := frechetMean_ok pts c mi tol r hok
    exact frechetLoop_interior pts c tol _ hc hlt _ _ r
      (interior_projectToBall _ c hc hlt (hall _ (headD_mem pts hne))) hloop

/-- Witness for C5 at `x = v = [0]`, `c = 1` and `points = [[0]]`. -/
theorem boundary_safety_witness :
    expMap [(0 : ℝ)] [(0 : ℝ)] 1 = .ok [(0 : ℝ)] ∧
    frechetMean [[(0 : ℝ)]] 1 64 1e-8 = .ok [(0 : ℝ)] ∧
    (1 : ℝ) * normSq [(0 : ℝ)] < 1 := by
  have hexp : expMap [(0 : ℝ)] [(0 : ℝ)] 1 = .ok [(0 : ℝ)] := by
    unfold expMap
    rw [if_neg (by simp), if_neg (by norm_num),
      if_pos (by rw [normSq_single]; norm_num [Real.sqrt_zero])]
  have hfre : frechetMean [[(0 : ℝ)]] 1 64 1e-8 = .ok [(0 : ℝ)] :=
    frechetMean_singleton_eval [(0 : ℝ)] 1 64 1e-8 (by norm_num)
      (by rw [normSq_single]; norm_num [Real.sqrt_zero, Real.sqrt_one])
      (by rw [normSq_single]; norm_num)
  refine ⟨hexp, hfre, ?_⟩
  exact (boundary_safety [(0 : ℝ)] [(0 : ℝ)] [(0 : ℝ)] 1 [[(0 : ℝ)]] 64 1e-8
    (by norm_num)).2 (by norm_num)
    (by intro p hp; simp at hp; rw [hp, normSq_single]; norm_num) hfre

/-- C7 counterexample: at `x = [1 − 1e-16]` (a valid interior point),
`y = [0]`, `v = [1/2]`, `c = 1`, the final Möbius addition inside the
gyration has denominator `(1 − ‖x‖²)²/den ≈ 1.6e-31 < 1e-15`, so
`parallel_transport` raises `DegenerateOperation` instead of returning
`(λ_x/λ_y)·gyr[y,−x]v` as the claim states for all equal-length inputs. -/
theorem parallel_transport_counterexample :
    parallelTransport [(1 - 1e-16 : ℝ)] [(0 : ℝ)] [(1/2 : ℝ)] 1 =
      .error .degenerateOperation := by
  have hmn : List.map (fun xi => -xi) [(1 - 1e-16 : ℝ)] =
      [(-(1 - 1e-16) : ℝ)] := by simp
  have hden2lb : (1/5 : ℝ) ≤ mobiusDen [(-(1 - 1e-16) : ℝ)] [(1/2 : ℝ)] 1 := by
    unfold mobiusDen
    rw [dot_single, normSq_single, normSq_single]
    norm_num
  have hden2pos : (0 : ℝ) < mobiusDen [(-(1 - 1e-16) : ℝ)] [(1/2 : ℝ)] 1 :=
    lt_of_lt_of_le (by norm_num) hden2lb
  have huv : mobiusAdd [(0 : ℝ)] [(-(1 - 1e-16) : ℝ)] 1 =
      .ok [(-(1 - 1e-16) : ℝ)] := mobiusAdd_zero_left _ _ (by norm_num)
  have hvw : mobiusAdd [(-(1 - 1e-16) : ℝ)] [(1/2 : ℝ)] 1 =
      .ok (mobiusRaw [(-(1 - 1e-16) : ℝ)] [(1/2 : ℝ)] 1) :=
    mobiusAdd_eq_ok _ _ _ (by simp) (by norm_num)
      (by rw [abs_of_pos hden2pos]; linarith)
  have hwlen : (mobiusRaw [(-(1 - 1e-16) : ℝ)] [(1/2 : ℝ)] 1).length = 1 := by
    rw [length_mobiusRaw _ _ _ (by simp)]
    rfl
  have hleft : mobiusAdd [(0 : ℝ)]
      (mobiusRaw [(-(1 - 1e-16) : ℝ)] [(1/2 : ℝ)] 1) 1 =
      .ok (mobiusRaw [(-(1 - 1e-16) : ℝ)] [(1/2 : ℝ)] 1) :=
    mobiusAdd_zero_left₁ _ hwlen 1 (by norm_num)
  have hden3 : mobiusDen (List.map (fun z => -z) [(-(1 - 1e-16) : ℝ)])
      (mobiusRaw [(-(1 - 1e-16) : ℝ)] [(1/2 : ℝ)] 1) 1 =
      (1 - 1 * normSq [(-(1 - 1e-16) : ℝ)]) ^ 2 /
        mobiusDen [(-(1 - 1e-16) : ℝ)] [(1/2 : ℝ)] 1 :=
    mobiusDen_neg_mobiusRaw _ _ _ (by simp) (ne_of_gt hden2pos)
  have habs : |mobiusDen (List.map (fun z => -z) [(-(1 - 1e-16) : ℝ)])
      (mobiusRaw [(-(1 - 1e-16) : ℝ)] [(1/2 : ℝ)] 1) 1| < 1e-15 := by
    rw [hden3, abs_of_nonneg (by positivity)]
    rw [normSq_single, div_lt_iff hden2pos]
    nlinarith [hden2lb]
  have hfin : mobiusAdd (List.map (fun z => -z) [(-(1 - 1e-16) : ℝ)])
      (mobiusRaw [(-(1 - 1e-16) : ℝ)] [(1/2 : ℝ)] 1) 1 =
      .error .degenerateOperation :=
    mobiusAdd_degenerate _ _ _ (by rw [List.length_map, hwlen]; simp)
      (by norm_num) habs
  have hgyro : gyro [(0 : ℝ)] [(-(1 - 1e-16) : ℝ)] [(1/2 : ℝ)] 1 =
      .error .degenerateOperation := by
    rw [gyro_eval _ _ _ _ _ _ _ huv hvw hleft]
    exact hfin
  exact parallelTransport_gyro_error _ _ _ _ _ (by simp) (by simp)
    (by norm_num) (by rw [hmn]; exact hgyro)

/-- C7 (amended): whenever `parallel_transport(x, y, v, c)` returns a
vector (rather than raising `DegenerateOperation` from one of its internal
Möbius additions) and the conformal-factor clamps are inactive
(`1 − c‖x‖² ≥ 1e-15` and `1 − c‖y‖² ≥ 1e-15`), the returned vector is
`(λ_x/λ_y) · gyr[y, −x]v` with `gyr[u,w]z = −(u⊕w) ⊕ (u⊕(w⊕z))` and
`λ_p = 2/(1 − c‖p‖²)`. -/
theorem parallel_transport_formula (x y v r : List ℝ) (c : ℝ)
    (hx : 1e-15 ≤ 1 - c * normSq x) (hy : 1e-15 ≤ 1 - c * normSq y)
    (hok : parallelTransport x y v c = .ok r) :
    r = (gyrRaw y (x.map fun xi => -xi) v c).map
      (fun gi => ((2 / (1 - c * normSq x)) / (2 / (1 - c * normSq y))) * gi) := by
  obtain ⟨hc, g, hg, rfl⟩ := parallelTransport_ok x y v r c hok
  obtain ⟨uv, vw, left, huv, hvw, hleft, hfin⟩ := gyro_ok _ _ _ _ _ hg
  obtain ⟨-, -, -, rfl⟩ := mobiusAdd_ok _ _ _ _ huv
  obtain ⟨-, -, -, rfl⟩ := mobiusAdd_ok _ _ _ _ hvw
  obtain ⟨-, -, -, rfl⟩ := mobiusAdd_ok _ _ _ _ hleft
  obtain ⟨-, -, -, rfl⟩ := mobiusAdd_ok _ _ _ _ hfin
  have hlx : lambdaAt x c = 2 / (1 - c * normSq x) := by
    unfold lambdaAt
    rw [max_eq_left hx]
  have hly : lambdaAt y c = 2 / (1 - c * normSq y) := by
    unfold lambdaAt
    rw [max_eq_left hy]
  rw [hlx, hly]
  rfl

/-- Witness for C7 at `x = y = [0]`, `v = [1/2]`, `c = 1`: the transport
succeeds with result `[1/2]`, which matches the spec's
`(λ_x/λ_y)·gyr[y,−x]v` formula. -/
theorem parallel_transport_formula_witness :
    parallelTransport [(0 : ℝ)] [(0 : ℝ)] [(1/2 : ℝ)] 1 = .ok [(1/2 : ℝ)] ∧
    [(1/2 : ℝ)] = (gyrRaw [(0 : ℝ)] (List.map (fun xi => -xi) [(0 : ℝ)])
      [(1/2 : ℝ)] 1).map
      (fun gi => ((2 / (1 - 1 * normSq [(0 : ℝ)])) /
        (2 / (1 - 1 * normSq [(0 : ℝ)]))) * gi) := by
  have hmn : List.map (fun xi => -xi) [(0 : ℝ)] = [(0 : ℝ)] := by simp
  have hmn2 : List.map (fun z => -z) [(0 : ℝ)] = [(0 : ℝ)] := by simp
  have hgyro : gyro [(0 : ℝ)] (List.map (fun xi => -xi) [(0 : ℝ)])
      [(1/2 : ℝ)] 1 = .ok [(1/2 : ℝ)] := by
    rw [hmn, gyro_eval _ _ _ _ _ _ _
      (mobiusAdd_zero_left (0 : ℝ) 1 (by norm_num))
      (mobiusAdd_zero_left (1/2 : ℝ) 1 (by norm_num))
      (mobiusAdd_zero_left (1/2 : ℝ) 1 (by norm_num)), hmn2]
    exact mobiusAdd_zero_left (1/2 : ℝ) 1 (by norm_num)
  have hlam : lambdaAt [(0 : ℝ)] 1 = 2 := by
    unfold lambdaAt
    rw [normSq_single]
    norm_num
  have hpt : parallelTransport [(0 : ℝ)] [(0 : ℝ)] [(1/2 : ℝ)] 1 =
      .ok [(1/2 : ℝ)] := by
    rw [parallelTransport_eval _ _ _ _ _ (by simp) (by simp) (by norm_num) hgyro,
      hlam]
    norm_num
  exact ⟨hpt, parallel_transport_formula [(0 : ℝ)] [(0 : ℝ)] [(1/2 : ℝ)]
    [(1/2 : ℝ)] 1 (by rw [normSq_single]; norm_num)
    (by rw [normSq_single]; norm_num) hpt⟩

/-- C2 counterexample: the Python loop runs `range(max(1, max_iter))`
rounds, so with `max_iter = 0` one gradient round still executes: on
`points = [[0], [1/2]]`, `c = 1`, the initial estimate is `[0]` (the
projection of `points[0]`), yet `frechet_mean` with `max_iter = 0` returns
`[tanh(atanh(1/2)/2)] ≈ [0.268] ≠ [0]` — more than the claimed "at most
max_iter rounds" were executed. -/
theorem frechet_zero_iter_counterexample :
    projectToBall [(0 : ℝ)] 1 = [(0 : ℝ)] ∧
    frechetMean [[(0 : ℝ)], [(1/2 : ℝ)]] 1 0 1e-8 =
      .ok [tanh (atanh (1/2) * (1/2))] ∧
    frechetMean [[(0 : ℝ)], [(1/2 : ℝ)]] 1 0 1e-8 ≠ .ok [(0 : ℝ)] := by
  have hlog3 : (1 : ℝ) ≤ Real.log 3 := by
    rw [Real.le_log_iff_exp_le (by norm_num)]
    have := Real.exp_one_lt_d9
    linarith
  have hlog3u : Real.log 3 ≤ 2 := by
    have := Real.log_le_sub_one_of_pos (by norm_num : (0 : ℝ) < 3)
    linarith
  have hGval : atanh (1/2) * (1/2) = Real.log 3 / 4 := by
    rw [atanh_half]
    ring
  have hG0 : (0 : ℝ) < atanh (1/2) * (1/2) := by
    rw [hGval]
    linarith
  have hmu0 : projectToBall [(0 : ℝ)] 1 = [(0 : ℝ)] := by
    apply projectToBall_unchanged
    rw [max_normSq, normSq_single, show (0 : ℝ) * 0 = 0 by ring,
      Real.sqrt_zero, Real.sqrt_one]
    norm_num
  have hmn0 : List.map (fun xi => -xi) [(0 : ℝ)] = [(0 : ℝ)] := by simp
  have hlog1 : logMap [(0 : ℝ)] [(0 : ℝ)] 1 = .ok (List.replicate 1 0) :=
    logMap_self [(0 : ℝ)] 1 (by norm_num) (by rw [normSq_single]; norm_num)
  have hdn12 : Real.sqrt (max (normSq [(1/2 : ℝ)]) 0) = 1/2 := by
    rw [max_normSq, normSq_single, show (1/2 : ℝ) * (1/2) = (1/2) ^ 2 by norm_num,
      Real.sqrt_sq (by norm_num)]
  have hlam0 : lambdaAt [(0 : ℝ)] 1 = 2 := by
    unfold lambdaAt
    rw [normSq_single]
    norm_num
  have hLF : logFactor [(0 : ℝ)] [(1/2 : ℝ)] 1 = atanh (1/2) := by
    unfold logFactor
    rw [hlam0, Real.sqrt_one, hdn12, min_eq_left (by norm_num)]
    norm_num
  have hlog2 : logMap [(0 : ℝ)] [(1/2 : ℝ)] 1 = .ok [atanh (1/2)] := by
    rw [logMap_eval _ _ [(1/2 : ℝ)] _ (by simp) (by norm_num)
      (by rw [hmn0]; exact mobiusAdd_zero_left (1/2) 1 (by norm_num))
      (by rw [hdn12]; norm_num)]
    simp only [List.map_cons, List.map_nil]
    rw [hdn12, hLF, mul_div_assoc, div_self (by norm_num), mul_one]
  have hgrad : meanGrad [[(0 : ℝ)], [(1/2 : ℝ)]] [(0 : ℝ)] 1 1 =
      .ok [atanh (1/2) * (1/2)] := by
    rw [meanGrad_pair_eval [(0 : ℝ)] [(1/2 : ℝ)] [(0 : ℝ)]
      (List.replicate 1 0) [atanh (1/2)] 1 1 hlog1 hlog2 (by simp)]
    congr 1
    simp
  have hgnorm : Real.sqrt (max (normSq [atanh (1/2) * (1/2)]) 0) =
      atanh (1/2) * (1/2) := by
    rw [max_normSq, normSq_single,
      show atanh (1/2) * (1/2) * (atanh (1/2) * (1/2)) =
        (atanh (1/2) * (1/2)) ^ 2 by ring, Real.sqrt_sq hG0.le]
  have hbig : ¬(Real.sqrt (max (normSq [atanh (1/2) * (1/2)]) 0) ≤
      max 1e-8 1e-15) := by
    rw [hgnorm, max_eq_left (by norm_num), hGval]
    push_neg
    linarith
  have hscale : expScale [(0 : ℝ)] [atanh (1/2) * (1/2)] 1 =
      tanh (atanh (1/2) * (1/2)) / (atanh (1/2) * (1/2)) := by
    unfold expScale
    rw [hlam0, Real.sqrt_one, hgnorm]
    norm_num
  have hstep : List.map (fun vi => expScale [(0 : ℝ)] [atanh (1/2) * (1/2)] 1 * vi)
      [atanh (1/2) * (1/2)] = [tanh (atanh (1/2) * (1/2))] := by
    simp only [List.map_cons, List.map_nil, List.cons.injEq, and_true]
    rw [hscale, div_mul_cancel₀ _ (ne_of_gt hG0)]
  have hexp : expMap [(0 : ℝ)] [atanh (1/2) * (1/2)] 1 =
      .ok [tanh (atanh (1/2) * (1/2))] := by
    unfold expMap
    rw [if_neg (by simp), if_neg (by norm_num),
      if_neg (by rw [hgnorm]; push_neg; linarith), hstep]
    exact mobiusAdd_zero_left _ 1 (by norm_num)
  have hTpos : 0 < tanh (atanh (1/2) * (1/2)) := tanh_pos _ hG0
  have hTle : tanh (atanh (1/2) * (1/2)) ≤ 1 - 1e-9 := by
    have hw : Real.exp (2 * (atanh (1/2) * (1/2))) ≤ 3 := by
      rw [show 2 * (atanh (1/2) * (1/2)) = atanh (1/2) by ring, atanh_half,
        show Real.log 3 / 2 = (1/2) * Real.log 3 by ring]
      calc Real.exp ((1/2) * Real.log 3) ≤ Real.exp (Real.log 3) :=
            Real.exp_le_exp.mpr (by nlinarith)
      _ = 3 := Real.exp_log (by norm_num)
    unfold tanh
    have hwp := Real.exp_pos (2 * (atanh (1/2) * (1/2)))
    rw [div_le_iff (by linarith)]
    nlinarith
  have hproj : projectToBall [tanh (atanh (1/2) * (1/2))] 1 =
      [tanh (atanh (1/2) * (1/2))] := by
    apply projectToBall_unchanged
    rw [max_normSq, normSq_single,
      show tanh (atanh (1/2) * (1/2)) * tanh (atanh (1/2) * (1/2)) =
        tanh (atanh (1/2) * (1/2)) ^ 2 by ring,
      Real.sqrt_sq hTpos.le, Real.sqrt_one]
    linarith
  have hfin : frechetMean [[(0 : ℝ)], [(1/2 : ℝ)]] 1 0 1e-8 =
      .ok [tanh (atanh (1/2) * (1/2))] := by
    rw [frechetMean_eval _ _ _ _ (by simp) (by norm_num)
      (by intro p hp; simp at hp; rcases hp with rfl | rfl <;> simp)]
    simp only [List.headD_cons]
    rw [hmu0, show (max 1 0 : ℕ) = 0 + 1 from rfl]
    show frechetLoop [[(0 : ℝ)], [(1/2 : ℝ)]] 1 1e-8 1 (0 + 1) [(0 : ℝ)] =
      .ok [tanh (atanh (1/2) * (1/2))]
    rw [frechetLoop_step _ _ _ _ _ _ _ _ hgrad hbig hexp, hproj]
    simp [frechetLoop]
  refine ⟨hmu0, hfin, ?_⟩
  rw [hfin]
  simp only [ne_eq, Except.ok.injEq, List.cons.injEq, and_true, not_and]
  intro hT
  exact absurd hT (ne_of_gt hTpos)

/-- C2 (amended): for a non-empty, dimension-consistent `points` and
`c > 0`, `frechet_mean` executes at most `max(1, max_iter)` gradient rounds
(so `max_iter = 0` still runs one round): the loop starts from the
projection of `points[0]`; a round with fuel 0 returns the current
estimate (exhaustion is not an error); a round whose averaged
`log_map`-gradient has norm `≤ max(tol, 1e-15)` stops as Converged
returning the current estimate; otherwise the round updates
`μ ← project_to_ball(exp_map(μ, grad, c), c)` and continues. -/
theorem frechet_iteration_structure (pts : List (List ℝ)) (c tol : ℝ)
    (mi : ℕ) (hne : pts ≠ []) (hc : 0 < c)
    (hdims : ∀ p ∈ pts, p.length = (pts.headD []).length) :
    frechetMean pts c mi tol =
      frechetLoop pts c tol (pts.headD []).length (max 1 mi)
        (projectToBall (pts.headD []) c) ∧
    (∀ mu, frechetLoop pts c tol (pts.headD []).length 0 mu = .ok mu) ∧
    (∀ n mu grad, meanGrad pts mu c (pts.headD []).length = .ok grad →
      Real.sqrt (max (normSq grad) 0) ≤ max tol 1e-15 →
      frechetLoop pts c tol (pts.headD []).length (n + 1) mu = .ok mu) ∧
    (∀ n mu grad mu1, meanGrad pts mu c (pts.headD []).length = .ok grad →
      ¬(Real.sqrt (max (normSq grad) 0) ≤ max tol 1e-15) →
      expMap mu grad c = .ok mu1 →
      frechetLoop pts c tol (pts.headD []).length (n + 1) mu =
        frechetLoop pts c tol (pts.headD []).length n (projectToBall mu1 c)) :=
  ⟨frechetMean_eval pts c mi tol hne hc hdims,
    fun _ => rfl,
    fun n mu grad h1 h2 => frechetLoop_stop pts c tol _ n mu grad h1 h2,
    fun n mu grad mu1 h1 h2 h3 =>
      frechetLoop_step pts c tol _ n mu grad mu1 h1 h2 h3⟩

/-- Witness for C2 (amended) at `points = [[0]]`, `c = 1`, `max_iter = 0`:
the loop budget is `max(1, 0) = 1` round and a fuel-0 loop returns its
current estimate. -/
theorem frechet_iteration_structure_witness :
    frechetMean [[(0 : ℝ)]] 1 0 1e-8 =
      frechetLoop [[(0 : ℝ)]] 1 1e-8 1 1 (projectToBall [(0 : ℝ)] 1) ∧
    frechetLoop [[(0 : ℝ)]] 1 1e-8 1 0 [(0 : ℝ)] = .ok [(0 : ℝ)] := by
  have h := frechet_iteration_structure [[(0 : ℝ)]] 1 1e-8 0 (by simp)
    (by norm_num) (by intro p hp; simp at hp; simp [hp])
  constructor
  · have h1 := h.1
    simp only [List.headD_cons, List.length_singleton,
      show (max 1 0 : ℕ) = 1 from rfl] at h1
    exact h1
  · exact h.2.1 [(0 : ℝ)]

/-- C6 counterexample: at the valid interior point `x = [1 − 5e-9]`
(`c‖x‖² < 1`), with the small tangent `v = [1e-10]` and `c = 1`,
`exp_map` succeeds but `log_map(x, exp_map(x, v, c), c)` raises
`DegenerateOperation`: the Möbius denominator of `(−x) ⊕ y` equals
`(1 − ‖x‖²)²/den ≤ 1e-16 < 1e-15`.  The round trip therefore does not
return `v` (within any tolerance) for every interior `x` and small `v`. -/
theorem round_trip_counterexample :
    roundTrip [(1 - 5e-9 : ℝ)] [(1e-10 : ℝ)] 1 = .error .degenerateOperation ∧
    1 * normSq [(1 - 5e-9 : ℝ)] < 1 ∧
    Real.sqrt (normSq [(1e-10 : ℝ)]) = 1e-10 := by
  have hnv : Real.sqrt (max (normSq [(1e-10 : ℝ)]) 0) = 1e-10 := by
    rw [max_normSq, normSq_single,
      show (1e-10 : ℝ) * 1e-10 = (1e-10) ^ 2 by norm_num,
      Real.sqrt_sq (by norm_num)]
  have hstep : List.map (fun vi => expScale [(1 - 5e-9 : ℝ)] [(1e-10 : ℝ)] 1 * vi)
      [(1e-10 : ℝ)] =
      [tanh (Real.sqrt 1 * lambdaAt [(1 - 5e-9 : ℝ)] 1 * 1e-10 / 2)] := by
    simp only [List.map_cons, List.map_nil, List.cons.injEq, and_true]
    unfold expScale
    rw [hnv, Real.sqrt_one]
    simp only [one_mul]
    exact div_mul_cancel₀ _ (by norm_num)
  set T := tanh (Real.sqrt 1 * lambdaAt [(1 - 5e-9 : ℝ)] 1 * 1e-10 / 2) with hT
  have hA_pos : 0 < Real.sqrt 1 * lambdaAt [(1 - 5e-9 : ℝ)] 1 * 1e-10 / 2 := by
    rw [Real.sqrt_one]
    unfold lambdaAt
    rw [normSq_single, max_eq_left (by norm_num)]
    positivity
  have hT_pos : 0 < T := tanh_pos _ hA_pos
  have hT_lt1 : T < 1 := tanh_lt_one _
  have hden1 : 1 ≤ mobiusDen [(1 - 5e-9 : ℝ)] [T] 1 := by
    unfold mobiusDen
    rw [dot_single, normSq_single, normSq_single]
    nlinarith [hT_pos, hT_lt1]
  have hden_pos : 0 < mobiusDen [(1 - 5e-9 : ℝ)] [T] 1 :=
    lt_of_lt_of_le (by norm_num) hden1
  have hexp : expMap [(1 - 5e-9 : ℝ)] [(1e-10 : ℝ)] 1 =
      .ok (mobiusRaw [(1 - 5e-9 : ℝ)] [T] 1) := by
    unfold expMap
    rw [if_neg (by simp), if_neg (by norm_num),
      if_neg (by rw [hnv]; norm_num), hstep]
    exact mobiusAdd_eq_ok _ _ _ (by simp) (by norm_num)
      (by rw [abs_of_pos hden_pos]; linarith)
  have hylen : (mobiusRaw [(1 - 5e-9 : ℝ)] [T] 1).length = 1 := by
    rw [length_mobiusRaw _ _ _ (by simp)]
    rfl
  have hden' : mobiusDen (List.map (fun xi => -xi) [(1 - 5e-9 : ℝ)])
      (mobiusRaw [(1 - 5e-9 : ℝ)] [T] 1) 1 =
      (1 - 1 * normSq [(1 - 5e-9 : ℝ)]) ^ 2 /
        mobiusDen [(1 - 5e-9 : ℝ)] [T] 1 :=
    mobiusDen_neg_mobiusRaw _ _ _ (by simp) (ne_of_gt hden_pos)
  have habs : |mobiusDen (List.map (fun xi => -xi) [(1 - 5e-9 : ℝ)])
      (mobiusRaw [(1 - 5e-9 : ℝ)] [T] 1) 1| < 1e-15 := by
    rw [hden', abs_of_nonneg (by positivity), normSq_single,
      div_lt_iff hden_pos]
    nlinarith [hden1]
  have hlogerr : logMap [(1 - 5e-9 : ℝ)] (mobiusRaw [(1 - 5e-9 : ℝ)] [T] 1) 1 =
      .error .degenerateOperation :=
    logMap_add_error _ _ _ (by rw [hylen]; rfl) (by norm_num) _
      (mobiusAdd_degenerate _ _ _ (by rw [List.length_map, hylen]; simp)
        (by norm_num) habs)
  refine ⟨?_, by rw [normSq_single]; norm_num,
    by rw [normSq_single, show (1e-10 : ℝ) * 1e-10 = (1e-10) ^ 2 by norm_num,
      Real.sqrt_sq (by norm_num)]⟩
  unfold roundTrip
  rw [hexp]
  exact hlogerr

set_option maxHeartbeats 2000000 in
/-- C6 (amended): for interior `x` staying away from the boundary
(`c‖x‖² ≤ 1/4`) and a small but numerically non-degenerate tangent
(`1e-14 ≤ ‖v‖` and `√c·‖v‖ ≤ 1/8`), the round trip
`log_map(x, exp_map(x, v, c), c)` returns exactly `v` (hence within any
tolerance): the exponential and logarithmic maps are mutually inverse in
this regime.  (Without the boundary margin the round trip can raise
`DegenerateOperation`, see the counterexample.) -/
theorem log_exp_round_trip (x v : List ℝ) (c : ℝ)
    (hlen : x.length = v.length) (hc : 0 < c)
    (hx : c * normSq x ≤ 1/4)
    (hv1 : 1e-14 ≤ Real.sqrt (normSq v))
    (hv2 : Real.sqrt c * Real.sqrt (normSq v) ≤ 1/8) :
    roundTrip x v c = .ok v := by
  have hmaxv : max (normSq v) 0 = normSq v := max_normSq v
  have hsc : 0 < Real.sqrt c := Real.sqrt_pos.mpr hc
  have hnv : 0 < Real.sqrt (normSq v) := lt_of_lt_of_le (by norm_num) hv1
  have hXnn : 0 ≤ normSq x := normSq_nonneg x
  have hcX : 0 ≤ c * normSq x := mul_nonneg hc.le hXnn
  have h1cX : 3/4 ≤ 1 - c * normSq x := by linarith
  have hlam : lambdaAt x c = 2 / (1 - c * normSq x) := by
    unfold lambdaAt
    rw [max_eq_left (by linarith)]
  have hlam_lb : 2 ≤ lambdaAt x c := by
    rw [hlam, le_div_iff (by linarith)]
    linarith
  have hlam_ub : lambdaAt x c ≤ 8/3 := by
    rw [hlam, div_le_iff (by linarith)]
    linarith
  have hlam_pos : 0 < lambdaAt x c := lt_of_lt_of_le (by norm_num) hlam_lb
  set N := Real.sqrt (max (normSq v) 0) with hNdef
  set A := Real.sqrt c * lambdaAt x c * N / 2 with hAdef
  set T := tanh A with hTdef
  set step := v.map (fun vi => expScale x v c * vi) with hstep
  set y := mobiusRaw x step c with hy
  have hsval : expScale x v c = T / (Real.sqrt c * N) := rfl
  have hcS : c * normSq step = T ^ 2 :=
    normSq_expStep x v c hc (by rw [hmaxv]; linarith)
  clear_value y step T A N
  have hNval : N = Real.sqrt (normSq v) := by rw [hNdef, hmaxv]
  have hA_pos : 0 < A := by
    rw [hAdef, hNval]
    exact div_pos (mul_pos (mul_pos hsc hlam_pos) hnv) (by norm_num)
  have hA_le : A ≤ 1/6 := by
    rw [hAdef, hNval]
    nlinarith [mul_nonneg hsc.le hnv.le, hv2, hlam_ub, hlam_lb]
  have hT_pos : 0 < T := hTdef ▸ tanh_pos A hA_pos
  have hT_lt1 : T < 1 := hTdef ▸ tanh_lt_one A
  have hT_le : T ≤ 1/6 := by
    rw [hTdef]
    unfold tanh
    have hw_pos := Real.exp_pos (2*A)
    have hw_le : Real.exp (2*A) ≤ 1.4 :=
      le_trans (Real.exp_le_exp.mpr (by linarith)) (le_of_lt exp_third_lt)
    rw [div_le_iff (by linarith)]
    linarith
  have hT_lb : A / (1 + A) ≤ T := by
    rw [hTdef]
    exact div_le_tanh A hA_pos.le
  have hT_lb2 : 6/7 * (Real.sqrt c * Real.sqrt (normSq v)) ≤ T := by
    have h1 : Real.sqrt c * Real.sqrt (normSq v) ≤ A := by
      rw [hAdef, hNval]
      nlinarith [mul_nonneg hsc.le hnv.le, hlam_lb]
    have h2 : 6/7 * A ≤ A / (1 + A) := by
      rw [le_div_iff (by linarith)]
      nlinarith [hA_pos, hA_le]
    have h3 : 6/7 * (Real.sqrt c * Real.sqrt (normSq v)) ≤ 6/7 * A :=
      mul_le_mul_of_nonneg_left h1 (by norm_num)
    linarith [h2, hT_lb, h3]
  have hlen_step : x.length = step.length := by
    rw [hstep, List.length_map, hlen]
  have hSnn : 0 ≤ normSq step := normSq_nonneg step
  have hcS_le : c * normSq step ≤ 1/36 := by
    rw [hcS]
    nlinarith [hT_pos, hT_le]
  have hdot2 : (c * dot x step) ^ 2 ≤ (c * normSq x) * (c * normSq step) := by
    nlinarith [mul_le_mul_of_nonneg_left (cauchy_schwarz x step) (sq_nonneg c)]
  have hdot144 : (c * dot x step) ^ 2 ≤ 1/144 := by
    nlinarith [hdot2, hx, hcS_le, hcX, mul_nonneg hc.le hSnn]
  have hden_lb : 5/6 ≤ mobiusDen x step c := by
    unfold mobiusDen
    nlinarith [sq_nonneg (c * dot x step + 1/12), hdot144,
      mul_nonneg hcX (mul_nonneg hc.le hSnn)]
  have hden_ub : mobiusDen x step c ≤ 3/2 := by
    unfold mobiusDen
    nlinarith [sq_nonneg (c * dot x step - 1/12), hdot144,
      mul_le_mul hx hcS_le (mul_nonneg hc.le hSnn) (by norm_num)]
  have hden_pos : 0 < mobiusDen x step c := lt_of_lt_of_le (by norm_num) hden_lb
  have hexp_ok : expMap x v c = .ok y := by
    unfold expMap
    rw [if_neg (by simp [hlen]), if_neg (not_le.mpr hc),
      if_neg (by rw [hmaxv]; push_neg; linarith), ← hstep, hy]
    exact mobiusAdd_eq_ok _ _ _ hlen_step hc
      (by rw [abs_of_pos hden_pos]; linarith)
  have hleny : x.length = y.length := by
    rw [hy, length_mobiusRaw x step c hlen_step]
  have hdely : mobiusDen (x.map fun t => -t) y c =
      (1 - c * normSq x) ^ 2 / mobiusDen x step c := by
    rw [hy]
    exact mobiusDen_neg_mobiusRaw x step c hlen_step (ne_of_gt hden_pos)
  have hden2_lb : 3/8 ≤ mobiusDen (x.map fun t => -t) y c := by
    rw [hdely, le_div_iff hden_pos]
    nlinarith [h1cX, hden_ub]
  have hcancel : mobiusRaw (x.map fun t => -t) y c = step := by
    rw [hy]
    exact mobius_left_cancel x step c hlen_step (ne_of_gt hden_pos) (by linarith)
  have hadd2 : mobiusAdd (x.map fun xi => -xi) y c = .ok step := by
    rw [mobiusAdd_eq_ok _ _ _ (by rw [List.length_map]; exact hleny) hc
      (by rw [abs_of_pos (lt_of_lt_of_le (by norm_num) hden2_lb)]; linarith),
      hcancel]
  have hnormstep : normSq step = T ^ 2 / c := by
    rw [eq_div_iff (ne_of_gt hc)]
    linarith [hcS]
  have hdn : Real.sqrt (max (normSq step) 0) = T / Real.sqrt c := by
    rw [max_normSq, hnormstep, Real.sqrt_div (sq_nonneg T),
      Real.sqrt_sq hT_pos.le]
  have hdn_big : ¬(Real.sqrt (max (normSq step) 0) < 1e-15) := by
    rw [hdn]
    push_neg
    rw [le_div_iff hsc]
    nlinarith [hT_lb2,
      mul_nonneg hsc.le (show (0:ℝ) ≤ Real.sqrt (normSq v) - 1e-14 by linarith),
      hsc.le]
  have hlogres : logMap x y c = .ok (step.map fun di =>
      logFactor x step c * di / Real.sqrt (max (normSq step) 0)) :=
    logMap_eval x y step c hleny hc hadd2 hdn_big
  have hatanh : atanh T = A := by
    rw [hTdef]
    exact atanh_tanh A
  have hfac : logFactor x step c = Real.sqrt (normSq v) := by
    unfold logFactor
    rw [hdn, show Real.sqrt c * (T / Real.sqrt c) = T from by field_simp,
      min_eq_left (by linarith : T ≤ 1 - 1e-15), hatanh, hAdef, hNval]
    field_simp [ne_of_gt hlam_pos, ne_of_gt hsc]
    ring
  have hfinal : step.map (fun di =>
      logFactor x step c * di / Real.sqrt (max (normSq step) 0)) = v := by
    have hlam_eq : (fun di => logFactor x step c * di /
        Real.sqrt (max (normSq step) 0)) =
        (fun di => Real.sqrt (normSq v) * di / (T / Real.sqrt c)) := by
      funext di
      rw [hfac, hdn]
    rw [hlam_eq, hstep, List.map_map]
    have hfun : ((fun di => Real.sqrt (normSq v) * di / (T / Real.sqrt c)) ∘
        (fun vi => expScale x v c * vi)) = fun a => a := by
      funext a
      simp only [Function.comp_apply]
      rw [hsval, hNval]
      field_simp [ne_of_gt hT_pos, ne_of_gt hsc, ne_of_gt hnv]
      ring
    rw [hfun]
    simp
  unfold roundTrip
  rw [hexp_ok]
  show logMap x y c = .ok v
  rw [hlogres, hfinal]

/-- Witness for C6 at `x = [0]`, `v = [1/10]`, `c = 1`: the round trip
returns exactly `[1/10]`. -/
theorem log_exp_round_trip_witness :
    roundTrip [(0 : ℝ)] [(1/10 : ℝ)] 1 = .ok [(1/10 : ℝ)] := by
  have hn10 : Real.sqrt (normSq [(1/10 : ℝ)]) = 1/10 := by
    rw [normSq_single, show (1/10 : ℝ) * (1/10) = (1/10) ^ 2 by norm_num,
      Real.sqrt_sq (by norm_num)]
  apply log_exp_round_trip [(0 : ℝ)] [(1/10 : ℝ)] 1 (by simp) (by norm_num)
  · rw [normSq_single]
    norm_num
  · rw [hn10]
    norm_num
  · rw [hn10, Real.sqrt_one]
    norm_num

end

end Hyperspace
